import Mathlib

/-!
Verification of the `sgmlish` SGML parsing library against its
natural-language specification.

Strings are embedded as lists of characters (`Str`).  Rust functions are
translated into executable Lean definitions keeping the source structure:
fallible operations return `Option` or `Except`, and `Cow` values are
modelled by an explicit `borrowed`/`owned` sum.
-/

namespace Sgmlish

/-- Strings of the embedded program: Rust `&str` / `String` as a list of characters. -/
abbrev Str := List Char

/-- Rust `char::is_ascii_whitespace`: space, tab, newline, form feed, carriage return. -/
def isAsciiWhitespace (c : Char) : Bool :=
  c = ' ' || c = '\t' || c = '\n' || c = '\x0c' || c = '\r'

/-- Rust `char::to_ascii_lowercase`. -/
def toAsciiLowerChar (c : Char) : Char :=
  if 'A' ≤ c ∧ c ≤ 'Z' then Char.ofNat (c.toNat + 32) else c

/-- Rust `str::eq_ignore_ascii_case`: equality after ASCII case folding. -/
def eqIgnoreAsciiCase (a b : Str) : Bool :=
  a.map toAsciiLowerChar = b.map toAsciiLowerChar

/-- Accumulator-style helper for `splitAsciiWhitespace`: `cur` holds the
current word, reversed. -/
def splitAsciiWhitespaceAux : Str → Str → List Str
  | [], cur => if cur.isEmpty then [] else [cur.reverse]
  | c :: rest, cur =>
    if isAsciiWhitespace c then
      if cur.isEmpty then splitAsciiWhitespaceAux rest []
      else cur.reverse :: splitAsciiWhitespaceAux rest []
    else splitAsciiWhitespaceAux rest (c :: cur)

/-- Rust `str::split_ascii_whitespace`: whitespace-separated words, no empties. -/
def splitAsciiWhitespace (s : Str) : List Str :=
  splitAsciiWhitespaceAux s []

/-- `src/marked_sections.rs`: the status levels of a marked section,
in Rust declaration order (which `derive(Ord)` turns into
`Include < RcData < CData < Ignore`). -/
inductive MarkedSectionStatus
  | Include
  | RcData
  | CData
  | Ignore
  deriving DecidableEq, Repr

namespace MarkedSectionStatus

/-- Position of each constructor in the Rust enum declaration; `derive(Ord)`
compares by this rank. -/
def rank : MarkedSectionStatus → Nat
  | .Include => 0
  | .RcData => 1
  | .CData => 2
  | .Ignore => 3

/-- Strict order from Rust `derive(Ord)`. -/
def statusLt (a b : MarkedSectionStatus) : Bool := a.rank < b.rank

/-- Rust `Ord::max`: the second argument wins ties. -/
def rustMax (a b : MarkedSectionStatus) : MarkedSectionStatus :=
  if b.rank < a.rank then a else b

end MarkedSectionStatus

/-- The `KEYWORDS` table of `src/marked_sections.rs`, in source order. -/
def KEYWORDS : List (Str × MarkedSectionStatus) :=
  [("CDATA".data, .CData), ("RCDATA".data, .RcData), ("IGNORE".data, .Ignore),
   ("INCLUDE".data, .Include), ("TEMP".data, .Include)]

/-- `MarkedSectionStatus::from_str` (via the `KEYWORDS` table, matched with
`eq_ignore_ascii_case`); `none` models `ParseMarkedSectionStatusError`. -/
def fromStr (s : Str) : Option MarkedSectionStatus :=
  KEYWORDS.findSome? fun kw => if eqIgnoreAsciiCase kw.1 s then some kw.2 else none

/-- The `try_fold` loop inside `MarkedSectionStatus::from_keywords`:
fold `Ord::max` over the parsed keywords, stopping at the first parse error. -/
def tryFoldMax : MarkedSectionStatus → List Str → Except Str MarkedSectionStatus
  | acc, [] => .ok acc
  | acc, k :: ks =>
    match fromStr k with
    | some st => tryFoldMax (acc.rustMax st) ks
    | none => .error k

/-- `MarkedSectionStatus::from_keywords` from `src/marked_sections.rs`. -/
def from_keywords (s : Str) : Except Str MarkedSectionStatus :=
  tryFoldMax .Include (splitAsciiWhitespace s)

/-- Specification-side keyword table, written from the claim: each keyword is
matched case-insensitively, `TEMP` is an alias for `INCLUDE`, anything else is
unknown. -/
def specKeywordStatus (k : Str) : Option MarkedSectionStatus :=
  if eqIgnoreAsciiCase k "CDATA".data then some .CData
  else if eqIgnoreAsciiCase k "RCDATA".data then some .RcData
  else if eqIgnoreAsciiCase k "IGNORE".data then some .Ignore
  else if eqIgnoreAsciiCase k "INCLUDE".data then some .Include
  else if eqIgnoreAsciiCase k "TEMP".data then some .Include
  else none

/-- `src/parser/mod.rs`: how marked sections are handled by the parser. -/
inductive MarkedSectionHandling
  | KeepUnmodified
  | AcceptOnlyCharacterData
  | ExpandAll
  deriving DecidableEq, Repr

/-- `MarkedSectionHandling::parse_keywords` from `src/parser/mod.rs`:
in `AcceptOnlyCharacterData` mode the whole keyword string must parse (via
`FromStr`) to `CData` or `RcData`; other modes defer to `from_keywords`. -/
def parse_keywords (m : MarkedSectionHandling) (s : Str) : Except Str MarkedSectionStatus :=
  match m with
  | .AcceptOnlyCharacterData =>
    match fromStr s with
    | some .CData => .ok .CData
    | some .RcData => .ok .RcData
    | _ => .error s
  | _ => from_keywords s

/-- The library error variant relevant to marked-section keyword failures. -/
inductive SgmlError
  | InvalidMarkedSectionKeyword (kw : Str)
  deriving DecidableEq, Repr

/-- The keyword-checking step of `marked_section_declaration` in
`src/parser/events.rs` (lines 99-117): a `parse_keywords` failure is turned
into a failure carrying `Error::InvalidMarkedSectionKeyword` built from the
whole (parameter-expanded) status-keyword string.  The position bookkeeping
of the original error is not modelled. -/
def markedSectionKeywordCheck (m : MarkedSectionHandling) (s : Str) :
    Except SgmlError MarkedSectionStatus :=
  match parse_keywords m s with
  | .ok st => .ok st
  | .error _ => .error (.InvalidMarkedSectionKeyword s)

lemma fromStr_eq_specKeywordStatus (k : Str) : fromStr k = specKeywordStatus k := by
  have hcomm : ∀ a b : Str, eqIgnoreAsciiCase a b = eqIgnoreAsciiCase b a := by
    intro a b
    simp only [eqIgnoreAsciiCase, decide_eq_decide]
    exact eq_comm
  simp only [fromStr, KEYWORDS, List.findSome?, specKeywordStatus]
  rw [hcomm "CDATA".data k, hcomm "RCDATA".data k, hcomm "IGNORE".data k,
    hcomm "INCLUDE".data k, hcomm "TEMP".data k]
  by_cases h1 : eqIgnoreAsciiCase k "CDATA".data = true <;>
    by_cases h2 : eqIgnoreAsciiCase k "RCDATA".data = true <;>
      by_cases h3 : eqIgnoreAsciiCase k "IGNORE".data = true <;>
        by_cases h4 : eqIgnoreAsciiCase k "INCLUDE".data = true <;>
          by_cases h5 : eqIgnoreAsciiCase k "TEMP".data = true <;>
            simp [h1, h2, h3, h4, h5]

lemma tryFoldMax_spec (L : List Str) : ∀ acc : MarkedSectionStatus,
    tryFoldMax acc L =
      match L.find? (fun k => (specKeywordStatus k).isNone) with
      | some k => .error k
      | none =>
        .ok (L.foldl (fun a k => a.rustMax ((specKeywordStatus k).getD .Include)) acc) := by
  induction L with
  | nil => intro acc; simp [tryFoldMax]
  | cons k ks ih =>
    intro acc
    rw [tryFoldMax]
    rcases h : fromStr k with _ | st
    · have h' := h
      rw [fromStr_eq_specKeywordStatus] at h'
      simp [List.find?, h', Option.isNone]
    · have h' := h
      rw [fromStr_eq_specKeywordStatus] at h'
      simp [List.find?, h', Option.isNone, ih]

/-- CLAIM C6: `MarkedSectionStatus::from_keywords` splits the string on ASCII
whitespace, errors with the first unknown keyword, and otherwise folds
`Ord::max` over the keyword statuses starting from `INCLUDE`, so the maximum
keyword wins; the order is `INCLUDE < RCDATA < CDATA < IGNORE`, keywords are
matched case-insensitively and `TEMP` is an alias for `INCLUDE`. -/
theorem from_keywords_max_or_first_unknown :
    (∀ s : Str, from_keywords s =
      match (splitAsciiWhitespace s).find? (fun k => (specKeywordStatus k).isNone) with
      | some k => .error k
      | none =>
        .ok ((splitAsciiWhitespace s).foldl
          (fun a k => a.rustMax ((specKeywordStatus k).getD .Include)) .Include))
    ∧ MarkedSectionStatus.statusLt .Include .RcData = true
    ∧ MarkedSectionStatus.statusLt .RcData .CData = true
    ∧ MarkedSectionStatus.statusLt .CData .Ignore = true
    ∧ specKeywordStatus "TEMP".data = some .Include
    ∧ specKeywordStatus "teMp".data = some .Include
    ∧ specKeywordStatus "cDaTa".data = some .CData
    ∧ specKeywordStatus "rcdata".data = some .RcData
    ∧ specKeywordStatus "ignore".data = some .Ignore
    ∧ specKeywordStatus "UNKNOWN".data = none :=
  ⟨fun s => tryFoldMax_spec _ _, rfl, rfl, rfl, by decide, by decide, by decide,
   by decide, by decide, by decide⟩

/-- CLAIM C10: a status-keyword string consisting only of (ASCII) whitespace
has no keywords, so `from_keywords` returns the default `INCLUDE` status. -/
theorem from_keywords_blank_is_include (s : Str)
    (h : ∀ c ∈ s, isAsciiWhitespace c = true) :
    from_keywords s = .ok .Include := by
  have : splitAsciiWhitespace s = [] := by
    unfold splitAsciiWhitespace
    induction s with
    | nil => rfl
    | cons c rest ih =>
      have hc := h c (List.mem_cons_self ..)
      rw [splitAsciiWhitespaceAux, if_pos hc]
      simpa using ih fun x hx => h x (List.mem_cons_of_mem _ hx)
  rw [from_keywords, this]
  rfl

/-- Witness for C10 at the concrete inputs `""` and `" \t"`. -/
theorem from_keywords_blank_is_include_witness :
    from_keywords "".data = .ok .Include ∧ from_keywords " \t".data = .ok .Include :=
  ⟨from_keywords_blank_is_include "".data (by decide),
   from_keywords_blank_is_include " \t".data (by decide)⟩

/-- CLAIM C7: under `AcceptOnlyCharacterData`, keyword parsing succeeds exactly
when the status-keyword string is a single bare `CDATA` or `RCDATA` keyword
(matched case-insensitively); any other string — including combinations of
several valid keywords — is rejected, and the parser then fails with
`InvalidMarkedSectionKeyword`. -/
theorem parse_keywords_accept_only_character_data (s : Str) :
    ((∃ st, parse_keywords .AcceptOnlyCharacterData s = .ok st) ↔
      (eqIgnoreAsciiCase s "CDATA".data = true ∨ eqIgnoreAsciiCase s "RCDATA".data = true))
    ∧ ((¬(eqIgnoreAsciiCase s "CDATA".data = true ∨ eqIgnoreAsciiCase s "RCDATA".data = true)) →
      markedSectionKeywordCheck .AcceptOnlyCharacterData s =
        .error (.InvalidMarkedSectionKeyword s)) := by
  have hspec : fromStr s = specKeywordStatus s := fromStr_eq_specKeywordStatus s
  have herr : (¬ eqIgnoreAsciiCase s "CDATA".data = true) →
      (¬ eqIgnoreAsciiCase s "RCDATA".data = true) →
      parse_keywords .AcceptOnlyCharacterData s = .error s := by
    intro h1 h2
    rw [parse_keywords, hspec, specKeywordStatus, if_neg h1, if_neg h2]
    split_ifs <;> rfl
  constructor
  · constructor
    · rintro ⟨st, hst⟩
      by_cases h1 : eqIgnoreAsciiCase s "CDATA".data = true
      · exact Or.inl h1
      by_cases h2 : eqIgnoreAsciiCase s "RCDATA".data = true
      · exact Or.inr h2
      rw [herr h1 h2] at hst
      exact absurd hst (by simp)
    · intro h
      rcases h with h | h
      · refine ⟨.CData, ?_⟩
        rw [parse_keywords, hspec, specKeywordStatus, if_pos h]
      · refine ⟨.RcData, ?_⟩
        have h2 : ¬ eqIgnoreAsciiCase s "CDATA".data = true := by
          intro hc
          simp only [eqIgnoreAsciiCase, decide_eq_true_eq] at hc h
          exact absurd (hc.symm.trans h) (by decide)
        rw [parse_keywords, hspec, specKeywordStatus, if_neg h2, if_pos h]
  · intro h
    push_neg at h
    rw [markedSectionKeywordCheck, herr (by simpa using h.1) (by simpa using h.2)]

/-- Witness for C7: `cdata` (single keyword, lowercase) is accepted;
`CDATA CDATA` (two valid keywords combined) and `IGNORE` are rejected with
`InvalidMarkedSectionKeyword`. -/
theorem parse_keywords_accept_only_character_data_witness :
    (∃ st, parse_keywords .AcceptOnlyCharacterData "cdata".data = .ok st)
    ∧ markedSectionKeywordCheck .AcceptOnlyCharacterData "CDATA CDATA".data =
        .error (.InvalidMarkedSectionKeyword "CDATA CDATA".data)
    ∧ markedSectionKeywordCheck .AcceptOnlyCharacterData "IGNORE".data =
        .error (.InvalidMarkedSectionKeyword "IGNORE".data) :=
  ⟨(parse_keywords_accept_only_character_data "cdata".data).1.mpr (by decide),
   (parse_keywords_accept_only_character_data "CDATA CDATA".data).2 (by decide),
   (parse_keywords_accept_only_character_data "IGNORE".data).2 (by decide)⟩

/-- Rust `char::is_uppercase` (Unicode `Uppercase` property), modelled for the
characters this development exercises: full ASCII plus `Ü`; all other
characters are treated as uncased. -/
def rustIsUppercase (c : Char) : Bool :=
  (65 ≤ c.toNat && c.toNat ≤ 90) || c = 'Ü'

/-- Rust `char::is_lowercase` (Unicode `Lowercase` property), modelled for the
characters this development exercises: full ASCII plus `ß` and `ü`; all other
characters are treated as uncased. -/
def rustIsLowercase (c : Char) : Bool :=
  (97 ≤ c.toNat && c.toNat ≤ 122) || c = 'ß' || c = 'ü'

/-- Rust `char::to_uppercase` (full Unicode uppercasing, possibly multi-char),
modelled for the characters this development exercises; per Unicode
`SpecialCasing.txt`, `ß` uppercases to `SS`. -/
def rustCharToUppercase (c : Char) : Str :=
  if 97 ≤ c.toNat ∧ c.toNat ≤ 122 then [Char.ofNat (c.toNat - 32)]
  else if c = 'ß' then "SS".data
  else if c = 'ü' then ['Ü']
  else [c]

/-- Rust `char::to_lowercase`, modelled for the characters this development
exercises. -/
def rustCharToLowercase (c : Char) : Str :=
  if 65 ≤ c.toNat ∧ c.toNat ≤ 90 then [Char.ofNat (c.toNat + 32)]
  else if c = 'Ü' then ['ü']
  else [c]

/-- Rust `str::to_uppercase` as the character-wise concatenation of
`char::to_uppercase` (the one Unicode context-dependent exception, final
sigma, involves characters outside this model). -/
def rustStrToUppercase (s : Str) : Str :=
  s.flatMap rustCharToUppercase

/-- Rust `str::to_lowercase`, character-wise. -/
def rustStrToLowercase (s : Str) : Str :=
  s.flatMap rustCharToLowercase

/-- `src/parser/mod.rs`: how tag and attribute names are handled. -/
inductive NameNormalization
  | Unchanged
  | ToLowercase
  | ToUppercase
  deriving DecidableEq, Repr

/-- `NameNormalization::normalize` from `src/parser/mod.rs` (lines 126-138):
converts only when a character of the opposite case is present, using Rust's
Unicode `str::to_lowercase` / `str::to_uppercase`.  The `Cow` ownership of the
result is not modelled. -/
def NameNormalization.normalize (n : NameNormalization) (name : Str) : Str :=
  match n with
  | .ToLowercase => if name.any rustIsUppercase then rustStrToLowercase name else name
  | .ToUppercase => if name.any rustIsLowercase then rustStrToUppercase name else name
  | .Unchanged => name

/-- Specification-side ASCII-only uppercasing: ASCII letters change case,
every other character is left unchanged. -/
def asciiUppercaseChar (c : Char) : Char :=
  if 97 ≤ c.toNat ∧ c.toNat ≤ 122 then Char.ofNat (c.toNat - 32) else c

/-- Specification-side ASCII-only lowercasing. -/
def asciiLowercaseChar (c : Char) : Char :=
  if 65 ≤ c.toNat ∧ c.toNat ≤ 90 then Char.ofNat (c.toNat + 32) else c

/-- ASCII-only case conversion of a whole name, as the claim describes it. -/
def asciiUppercaseStr (s : Str) : Str := s.map asciiUppercaseChar

/-- ASCII-only lowercasing of a whole name. -/
def asciiLowercaseStr (s : Str) : Str := s.map asciiLowercaseChar

lemma bind_eq_map_of_singleton (f : Char → Char) (g : Char → Str) :
    ∀ l : Str, (∀ c ∈ l, g c = [f c]) → l.flatMap g = l.map f := by
  intro l
  induction l with
  | nil => intro _; rfl
  | cons c rest ih =>
    intro h
    rw [List.flatMap_cons, List.map_cons, h c (List.mem_cons_self ..),
      ih fun x hx => h x (List.mem_cons_of_mem _ hx)]
    rfl

lemma rustCharToLowercase_ascii (c : Char) (h : c.toNat < 128) :
    rustCharToLowercase c = [asciiLowercaseChar c] := by
  unfold rustCharToLowercase asciiLowercaseChar
  split_ifs with h1 h2
  · rfl
  · exfalso; rw [h2] at h; exact absurd h (by decide)
  · rfl

lemma rustCharToUppercase_ascii (c : Char) (h : c.toNat < 128) :
    rustCharToUppercase c = [asciiUppercaseChar c] := by
  unfold rustCharToUppercase asciiUppercaseChar
  split_ifs with h1 h2 h3
  · rfl
  · exfalso; rw [h2] at h; exact absurd h (by decide)
  · exfalso; rw [h3] at h; exact absurd h (by decide)
  · rfl

/-- CLAIM C5 (counterexample): the conversion applied by the parser is not
ASCII-only — uppercasing the non-ASCII name `ß` yields `SS` (Rust Unicode
uppercasing), whereas ASCII-only conversion would leave `ß` unchanged. -/
theorem normalize_uppercase_eszett_not_ascii_only :
    NameNormalization.normalize .ToUppercase "ß".data = "SS".data
    ∧ asciiUppercaseStr "ß".data = "ß".data
    ∧ NameNormalization.normalize .ToUppercase "ß".data ≠ asciiUppercaseStr "ß".data := by
  refine ⟨by decide, by decide, by decide⟩

/-- CLAIM C5 (amended): under `ToLowercase`/`ToUppercase` the parser applies
Rust's Unicode case conversion, which on names made only of ASCII characters
coincides with ASCII-only case conversion (ASCII letters change case, other
ASCII characters are unchanged); non-ASCII characters may change too (see the
`ß` counterexample).  Under `Unchanged` the name is emitted as-is. -/
theorem normalize_ascii_names :
    (∀ name : Str, (∀ c ∈ name, c.toNat < 128) →
      NameNormalization.normalize .ToLowercase name = asciiLowercaseStr name
      ∧ NameNormalization.normalize .ToUppercase name = asciiUppercaseStr name)
    ∧ (∀ name : Str, NameNormalization.normalize .Unchanged name = name) := by
  refine ⟨fun name h => ⟨?_, ?_⟩, fun name => rfl⟩
  · rw [NameNormalization.normalize]
    split_ifs with hany
    · exact bind_eq_map_of_singleton _ _ name fun c hc =>
        rustCharToLowercase_ascii c (h c hc)
    · rw [asciiLowercaseStr]
      have hall : ∀ c ∈ name, ¬ rustIsUppercase c = true := by simpa using hany
      have hnone : ∀ c ∈ name, asciiLowercaseChar c = c := by
        intro c hc
        rw [asciiLowercaseChar, if_neg]
        intro hrange
        exact hall c hc (by simp [rustIsUppercase, hrange.1, hrange.2])
      rw [List.map_congr_left hnone]
      exact (List.map_id' name).symm
  · rw [NameNormalization.normalize]
    split_ifs with hany
    · exact bind_eq_map_of_singleton _ _ name fun c hc =>
        rustCharToUppercase_ascii c (h c hc)
    · rw [asciiUppercaseStr]
      have hall : ∀ c ∈ name, ¬ rustIsLowercase c = true := by simpa using hany
      have hnone : ∀ c ∈ name, asciiUppercaseChar c = c := by
        intro c hc
        rw [asciiUppercaseChar, if_neg]
        intro hrange
        exact hall c hc (by simp [rustIsLowercase, hrange.1, hrange.2])
      rw [List.map_congr_left hnone]
      exact (List.map_id' name).symm

/-- Witness for the amended C5 at the concrete mixed-case ASCII name `AbC9`. -/
theorem normalize_ascii_names_witness :
    NameNormalization.normalize .ToLowercase "AbC9".data = "abc9".data
    ∧ NameNormalization.normalize .ToUppercase "AbC9".data = "ABC9".data
    ∧ NameNormalization.normalize .Unchanged "AbC9".data = "AbC9".data := by
  have h := normalize_ascii_names
  refine ⟨?_, ?_, h.2 "AbC9".data⟩
  · rw [(h.1 "AbC9".data (by decide)).1]; decide
  · rw [(h.1 "AbC9".data (by decide)).2]; decide

/-- Rust `Cow<str>`: either a borrowed slice of the input or an owned string. -/
inductive Cow
  | borrowed (s : Str)
  | owned (s : Str)
  deriving DecidableEq, Repr

/-- Contents of a `Cow`, ignoring ownership. -/
def Cow.str : Cow → Str
  | .borrowed s => s
  | .owned s => s

/-- `EntityError` from `src/entities.rs`: the undefined entity's name. -/
structure EntityError where
  name : Str
  deriving DecidableEq, Repr

/-- The internal `EntityRef` sum of `src/entities.rs`. -/
inductive EntityRef
  | entity (name : Str)
  | char (c : Char)
  deriving DecidableEq, Repr

/-- Rust `str::split(char)`: all pieces between occurrences of the separator,
empties included; always at least one piece. -/
def splitChar (sep : Char) : Str → List Str
  | [] => [[]]
  | c :: rest =>
    if c = sep then [] :: splitChar sep rest
    else
      match splitChar sep rest with
      | [] => [[c]]
      | w :: ws => (c :: w) :: ws

/-- Rust `char::is_alphabetic` (Unicode `Alphabetic`), modelled for the
characters this development exercises: ASCII letters; other characters are
treated as non-alphabetic. -/
def rustIsAlphabetic (c : Char) : Bool :=
  (65 ≤ c.toNat && c.toNat ≤ 90) || (97 ≤ c.toNat && c.toNat ≤ 122)

/-- Rust `char::is_alphanumeric`, modelled likewise (ASCII letters and digits). -/
def rustIsAlphanumeric (c : Char) : Bool :=
  rustIsAlphabetic c || (48 ≤ c.toNat && c.toNat ≤ 57)

/-- `raw::is_name_start_char` from `src/parser/raw.rs`. -/
def is_name_start_char (c : Char) : Bool := rustIsAlphabetic c

/-- `raw::is_name_char` from `src/parser/raw.rs`: alphanumeric or `. - _ :`. -/
def is_name_char (c : Char) : Bool :=
  rustIsAlphanumeric c || c = '.' || c = '-' || c = '_' || c = ':'

/-- `raw::name`: a name-start character followed by name characters.
Parsers take the input and return `(rest, matched)` on success. -/
def name : Str → Option (Str × Str)
  | [] => none
  | c :: rest =>
    if is_name_start_char c then
      some (rest.dropWhile is_name_char, c :: rest.takeWhile is_name_char)
    else none

/-- nom `digit1`: one or more ASCII decimal digits. -/
def digit1 (input : Str) : Option (Str × Str) :=
  match input.takeWhile (fun c => 48 ≤ c.toNat && c.toNat ≤ 57) with
  | [] => none
  | ds => some (input.dropWhile (fun c => 48 ≤ c.toNat && c.toNat ≤ 57), ds)

/-- nom `hex_digit1`: one or more ASCII hexadecimal digits. -/
def hexDigit1 (input : Str) : Option (Str × Str) :=
  match input.takeWhile (fun c =>
      (48 ≤ c.toNat && c.toNat ≤ 57) || (65 ≤ c.toNat && c.toNat ≤ 70)
        || (97 ≤ c.toNat && c.toNat ≤ 102)) with
  | [] => none
  | ds => some (input.dropWhile (fun c =>
      (48 ≤ c.toNat && c.toNat ≤ 57) || (65 ≤ c.toNat && c.toNat ≤ 70)
        || (97 ≤ c.toNat && c.toNat ≤ 102)), ds)

/-- Numeric value of one ASCII digit (decimal or hex). -/
def hexVal (c : Char) : Nat :=
  if 97 ≤ c.toNat then c.toNat - 87
  else if 65 ≤ c.toNat then c.toNat - 55
  else c.toNat - 48

/-- Rust `"…".parse::<u32>()`, on an all-digit string: the value, or `None` on
overflow past `u32::MAX`. -/
def parseU32Dec (ds : Str) : Option Nat :=
  let n := ds.foldl (fun acc c => 10 * acc + hexVal c) 0
  if n ≤ 4294967295 then some n else none

/-- Rust `u32::from_str_radix(…, 16)` on an all-hex-digit string. -/
def parseU32Hex (ds : Str) : Option Nat :=
  let n := ds.foldl (fun acc c => 16 * acc + hexVal c) 0
  if n ≤ 4294967295 then some n else none

/-- Rust `char::from_u32`: valid Unicode scalar values only. -/
def charFromU32 (n : Nat) : Option Char :=
  if n < 55296 ∨ (57344 ≤ n ∧ n < 1114112) then some (Char.ofNat n) else none

/-- `char_ref` from `src/entities.rs`: `#` then decimal digits, or `#x` then
hex digits; the numeric code must be a valid scalar value, otherwise this
parser fails (it does not fall back by itself). -/
def char_ref (input : Str) : Option (Str × EntityRef) :=
  match input with
  | '#' :: rest =>
    let inner : Option (Str × Option Nat) :=
      match digit1 rest with
      | some (r, ds) => some (r, parseU32Dec ds)
      | none =>
        match rest with
        | 'x' :: rest2 =>
          match hexDigit1 rest2 with
          | some (r, ds) => some (r, parseU32Hex ds)
          | none => none
        | _ => none
    match inner with
    | some (r, code) =>
      match code.bind charFromU32 with
      | some ch => some (r, .char ch)
      | none => none
    | none => none
  | _ => none

/-- `entity` from `src/entities.rs`: `recognize(preceded(opt(tag "#"), name))` —
an optional `#` followed by a name; the recognized span (hash included) is the
entity name. -/
def entity (input : Str) : Option (Str × EntityRef) :=
  match input with
  | '#' :: rest =>
    match name rest with
    | some (r, nm) => some (r, .entity ('#' :: nm))
    | none => none
  | _ =>
    match name input with
    | some (r, nm) => some (r, .entity nm)
    | none => none

/-- `entity_or_char_ref` from `src/entities.rs`: `alt((char_ref, entity))`. -/
def entity_or_char_ref (input : Str) : Option (Str × EntityRef) :=
  match char_ref input with
  | some v => some v
  | none => entity input

/-- `terminated(matcher, opt(tag ";"))`: after a successful match, an optional
trailing semicolon is consumed. -/
def withOptSemicolon (m : Str → Option (Str × EntityRef)) (input : Str) :
    Option (Str × EntityRef) :=
  match m input with
  | some (';' :: r, v) => some (r, v)
  | some (r, v) => some (r, v)
  | none => none

/-- The `for part in parts` loop of `expand_entities_with`: each part follows
an occurrence of the prefix character; a failed match reinstates the prefix
verbatim. -/
def expandLoop (pfx : Char) (m : Str → Option (Str × EntityRef)) (f : Str → Option Str) :
    List Str → Str → Except EntityError Str
  | [], out => .ok out
  | part :: rest, out =>
    match m part with
    | some (r, .entity nm) =>
      match f nm with
      | some rep => expandLoop pfx m f rest (out ++ rep ++ r)
      | none => .error ⟨nm⟩
    | some (r, .char c) => expandLoop pfx m f rest (out ++ [c] ++ r)
    | none => expandLoop pfx m f rest (out ++ [pfx] ++ part)

/-- `expand_entities_with` from `src/entities.rs`: split on the prefix; if the
first piece covers the whole text, return it borrowed; otherwise run the
matcher (with optional `;`) on every later piece and build an owned string. -/
def expand_entities_with (text : Str) (pfx : Char)
    (m : Str → Option (Str × EntityRef)) (f : Str → Option Str) :
    Except EntityError Cow :=
  match splitChar pfx text with
  | [] => .ok (.borrowed text)
  | first :: parts =>
    if first.length = text.length then .ok (.borrowed text)
    else (expandLoop pfx (withOptSemicolon m) f parts first).map .owned

/-- `expand_entities` from `src/entities.rs`. -/
def expand_entities (text : Str) (f : Str → Option Str) : Except EntityError Cow :=
  expand_entities_with text '&' entity_or_char_ref f

/-- `expand_parameter_entities` from `src/entities.rs`. -/
def expand_parameter_entities (text : Str) (f : Str → Option Str) : Except EntityError Cow :=
  expand_entities_with text '%' entity f

/-- `expand_character_references` from `src/entities.rs`: every entity
reference is undefined. -/
def expand_character_references (text : Str) : Except EntityError Cow :=
  expand_entities text (fun _ => none)

lemma splitChar_of_not_mem (sep : Char) :
    ∀ t : Str, sep ∉ t → splitChar sep t = [t] := by
  intro t
  induction t with
  | nil => intro _; rfl
  | cons c rest ih =>
    intro h
    have hc : ¬ c = sep := fun hc => h (hc ▸ List.mem_cons_self ..)
    rw [splitChar, if_neg hc, ih fun hm => h (List.mem_cons_of_mem _ hm)]

/-- CLAIM C9: a text without the reference prefix is returned unchanged as a
borrowed slice, whatever the lookup: no `&` for `expand_entities`, no `%` for
`expand_parameter_entities`. -/
theorem expand_entities_no_reference_borrowed :
    (∀ (t : Str) (f : Str → Option Str), '&' ∉ t →
      expand_entities t f = .ok (.borrowed t))
    ∧ (∀ (t : Str) (f : Str → Option Str), '%' ∉ t →
      expand_parameter_entities t f = .ok (.borrowed t)) := by
  constructor
  · intro t f h
    rw [expand_entities, expand_entities_with, splitChar_of_not_mem '&' t h]
    simp
  · intro t f h
    rw [expand_parameter_entities, expand_entities_with, splitChar_of_not_mem '%' t h]
    simp

/-- Witness for C9 at the concrete text `hello %x` (no `&`) and `hello &x`
(no `%`), with a lookup that is never consulted. -/
theorem expand_entities_no_reference_borrowed_witness :
    expand_entities "hello %x".data (fun _ => none) = .ok (.borrowed "hello %x".data)
    ∧ expand_parameter_entities "hello &x".data (fun _ => none) =
        .ok (.borrowed "hello &x".data) :=
  ⟨expand_entities_no_reference_borrowed.1 "hello %x".data _ (by decide),
   expand_entities_no_reference_borrowed.2 "hello &x".data _ (by decide)⟩

/-- CLAIM C3 (code behaviour at the failing input): an invalid *decimal*
character reference is passed through unchanged — the lookup is never
consulted and no error is raised — while an invalid *hexadecimal* reference
with the same (undefined-everything) lookup fails with an entity error for
`#x…`, as the claim and the function's own documentation describe for both
forms.  `1234567` and `0x110000` both exceed the greatest scalar value
`0x10FFFF`. -/
theorem expand_entities_invalid_decimal_char_ref_passthrough :
    expand_entities "&#1234567;".data (fun _ => none) = .ok (.owned "&#1234567;".data)
    ∧ expand_entities "&#x110000;".data (fun _ => none) =
        .error ⟨"#x110000".data⟩ := by
  constructor
  · rfl
  · rfl

/-- Prefix test on character lists, written out for easy reasoning (the
`BEq`-based `isPrefixOf` of nom's `tag`). -/
def startsWithTok : Str → Str → Bool
  | [], _ => true
  | _ :: _, [] => false
  | p :: ps, c :: cs => p = c && startsWithTok ps cs

/-- Position of the first occurrence of `pat` in the input, as nom's
`FindSubstring`/`take_until` compute it. -/
def findSub (pat : Str) : Str → Option Nat
  | [] => if pat.isEmpty then some 0 else none
  | l@(_ :: rest) => if startsWithTok pat l then some 0 else (findSub pat rest).map (· + 1)

/-- `take_until_terminated` from `src/parser/util.rs`, reduced to its
success/failure semantics: the text before the first occurrence of the
delimiter paired with the text after it, or `none` (a nom `Failure`) when the
delimiter is absent.  The error-pointing cosmetics are not modelled. -/
def splitFirst (pat : Str) (l : Str) : Option (Str × Str) :=
  (findSub pat l).map fun n => (l.take n, l.drop (n + pat.length))

/-- The event type of `src/lib.rs`.  String ownership (`Cow`) is modelled only
for attribute values, where a claim depends on it. -/
inductive SgmlEvent
  | MarkupDeclaration (keyword body : Str)
  | ProcessingInstruction (s : Str)
  | MarkedSection (status_keywords sectionBody : Str)
  | OpenStartTag (name : Str)
  | Attribute (name : Str) (value : Option Cow)
  | CloseStartTag
  | XmlCloseEmptyElement
  | EndTag (name : Str)
  | Character (text : Str)
  deriving DecidableEq, Repr

/-- Parser configuration (`src/parser/mod.rs`), restricted to the fields the
embedded functions read. -/
structure ParserConfig where
  name_normalization : NameNormalization
  entity_fn : Option (Str → Option Str)

/-- `ParserConfig::parse_rcdata`: expand entities with the configured lookup,
defaulting to a lookup that knows no entities. -/
def parse_rcdata (cfg : ParserConfig) (rcdata : Str) : Except EntityError Cow :=
  expand_entities rcdata (cfg.entity_fn.getD fun _ => none)

/-- nom `multispace0` (the `spaces` helper of `src/parser/util.rs`). -/
def spaces (input : Str) : Str :=
  input.dropWhile fun c => c = ' ' || c = '\t' || c = '\r' || c = '\n'

/-- The stop set of `unquoted_attribute_value`: `is_not("\"'> \t\r\n")`. -/
def unquotedStop (c : Char) : Bool :=
  c = '"' || c = '\'' || c = '>' || c = ' ' || c = '\t' || c = '\r' || c = '\n'

/-- `raw::unquoted_attribute_value`: a nonempty run of non-stop characters not
starting with a quote. -/
def unquoted_attribute_value (input : Str) : Option (Str × Str) :=
  match input with
  | [] => none
  | c :: _ =>
    if c = '"' || c = '\'' then none
    else
      match input.takeWhile (fun c => !unquotedStop c) with
      | [] => none
      | v => some (input.dropWhile (fun c => !unquotedStop c), v)

/-- `raw::quoted_attribute_value`: contents between matching single or double
quotes (terminated by the first closing quote). -/
def quoted_attribute_value (input : Str) : Option (Str × Str) :=
  match input with
  | '\'' :: rest => (splitFirst ['\''] rest).map fun p => (p.2, p.1)
  | '"' :: rest => (splitFirst ['"'] rest).map fun p => (p.2, p.1)
  | _ => none

/-- `raw::attribute_value`: unquoted first, then quoted; the flag records
whether quotes were present. -/
def attribute_value (input : Str) : Option (Str × (Str × Bool)) :=
  match unquoted_attribute_value input with
  | some (r, v) => some (r, (v, false))
  | none =>
    match quoted_attribute_value input with
    | some (r, v) => some (r, (v, true))
    | none => none

/-- `raw::attribute_parse_value`: `name`, then optionally `=` (with spaces
around) and a value parsed by the given closure.  A missing `=` backtracks to
a bare attribute; a failing value or closure is a nom `cut` failure (`none`).
The closure is specialized to the `Cow` results used by the event parser. -/
def attribute_parse_value (input : Str) (f : Str → Bool → Except EntityError Cow) :
    Option (Str × (Str × Option Cow)) :=
  match name input with
  | none => none
  | some (r1, nm) =>
    match spaces r1 with
    | '=' :: r2 =>
      match attribute_value (spaces r2) with
      | none => none
      | some (r4, (v, quoted)) =>
        match f v quoted with
        | .ok cow => some (r4, (nm, some cow))
        | .error _ => none
    | _ => some (r1, (nm, none))

/-- `events::attribute` from `src/parser/events.rs`: quoted values go through
`parse_rcdata` (entity expansion), unquoted values are kept verbatim, and the
attribute name is case-normalized. -/
def eventsAttribute (cfg : ParserConfig) (input : Str) : Option (Str × SgmlEvent) :=
  (attribute_parse_value input fun v quoted =>
      if quoted then parse_rcdata cfg v else .ok (.borrowed v)).map
    fun r => (r.1, SgmlEvent.Attribute (cfg.name_normalization.normalize r.2.1) r.2.2)

/-- A well-formed SGML name: a name-start character followed by name
characters. -/
def isValidName (nm : Str) : Bool :=
  match nm with
  | [] => false
  | c :: cs => is_name_start_char c && cs.all is_name_char

lemma takeWhile_dropWhile_append (p : Char → Bool) (l suf : Str)
    (hl : ∀ c ∈ l, p c = true) (hs : ∀ c, suf.head? = some c → p c = false) :
    (l ++ suf).takeWhile p = l ∧ (l ++ suf).dropWhile p = suf := by
  induction l with
  | nil =>
    cases suf with
    | nil => simp
    | cons c cs =>
      have hpc := hs c rfl
      constructor
      · rw [List.nil_append, List.takeWhile_cons_of_neg (by simp [hpc])]
      · rw [List.nil_append, List.dropWhile_cons_of_neg (by simp [hpc])]
  | cons c cs ih =>
    have hc := hl c (List.mem_cons_self ..)
    have h2 := ih fun x hx => hl x (List.mem_cons_of_mem _ hx)
    constructor
    · rw [List.cons_append, List.takeWhile_cons_of_pos hc, h2.1]
    · rw [List.cons_append, List.dropWhile_cons_of_pos hc, h2.2]

lemma name_parse_append (nm suf : Str) (h : isValidName nm = true)
    (hs : ∀ c, suf.head? = some c → is_name_char c = false) :
    name (nm ++ suf) = some (suf, nm) := by
  cases nm with
  | nil => exact absurd h (by simp [isValidName])
  | cons c cs =>
    simp only [isValidName, Bool.and_eq_true, List.all_eq_true] at h
    have hw := takeWhile_dropWhile_append is_name_char cs suf h.2 hs
    simp only [List.cons_append, name, h.1, if_pos, hw.1, hw.2]

lemma findSub_single (q : Char) (A B : Str) (h : q ∉ A) :
    findSub [q] (A ++ q :: B) = some A.length := by
  induction A with
  | nil =>
    rw [List.nil_append, findSub, if_pos (by simp [startsWithTok])]
    rfl
  | cons c cs ih =>
    have hc : ¬ c = q := fun hc => h (hc ▸ List.mem_cons_self ..)
    rw [List.cons_append, findSub,
      if_neg (by simp [startsWithTok]; intro hcq; exact absurd hcq.symm hc),
      ih fun hm => h (List.mem_cons_of_mem _ hm)]
    rfl

lemma splitFirst_single (q : Char) (A B : Str) (h : q ∉ A) :
    splitFirst [q] (A ++ q :: B) = some (A, B) := by
  rw [splitFirst, findSub_single q A B h]
  simp [List.take_left', List.drop_left']

/-- CLAIM C8: a quoted attribute value goes through entity expansion with the
configured lookup before the `Attribute` event is emitted (an expansion
failure fails the parse); an unquoted value is emitted verbatim, borrowed,
with no expansion. -/
theorem attribute_quoted_expands_unquoted_verbatim :
    (∀ (cfg : ParserConfig) (nm val rest : Str),
      isValidName nm = true → '\'' ∉ val →
      eventsAttribute cfg (nm ++ '=' :: '\'' :: (val ++ '\'' :: rest)) =
        (parse_rcdata cfg val).toOption.map fun cow =>
          (rest, SgmlEvent.Attribute (cfg.name_normalization.normalize nm) (some cow)))
    ∧ (∀ (cfg : ParserConfig) (nm val rest : Str),
      isValidName nm = true → val ≠ [] → (∀ c ∈ val, unquotedStop c = false) →
      (∀ c, rest.head? = some c → unquotedStop c = true) →
      eventsAttribute cfg (nm ++ '=' :: (val ++ rest)) =
        some (rest, SgmlEvent.Attribute (cfg.name_normalization.normalize nm)
          (some (.borrowed val)))) := by
  constructor
  · intro cfg nm val rest hnm hq
    have hname := name_parse_append nm ('=' :: '\'' :: (val ++ '\'' :: rest)) hnm
      (by intro c hc; cases hc; decide)
    have hsp : spaces ('=' :: '\'' :: (val ++ '\'' :: rest)) =
        '=' :: '\'' :: (val ++ '\'' :: rest) := by
      rw [spaces, List.dropWhile_cons_of_neg] <;> decide
    have hsp2 : spaces ('\'' :: (val ++ '\'' :: rest)) = '\'' :: (val ++ '\'' :: rest) := by
      rw [spaces, List.dropWhile_cons_of_neg] <;> decide
    have hval : attribute_value ('\'' :: (val ++ '\'' :: rest)) =
        some (rest, (val, true)) := by
      rw [attribute_value]
      have hu : unquoted_attribute_value ('\'' :: (val ++ '\'' :: rest)) = none := by
        rw [unquoted_attribute_value]
        simp
      simp [hu, quoted_attribute_value, splitFirst_single '\'' val rest hq]
    simp only [eventsAttribute, attribute_parse_value, hname, hsp, hsp2, hval, if_pos]
    rcases hpr : parse_rcdata cfg val with e | cow <;> simp [hpr, Except.toOption]
  · intro cfg nm val rest hnm hne hstop hrest
    have hname := name_parse_append nm ('=' :: (val ++ rest)) hnm
      (by intro c hc; cases hc; decide)
    have hsp : spaces ('=' :: (val ++ rest)) = '=' :: (val ++ rest) := by
      rw [spaces, List.dropWhile_cons_of_neg] <;> decide
    rcases val with _ | ⟨v0, val'⟩
    · exact absurd rfl hne
    have hv0 := hstop v0 (List.mem_cons_self ..)
    simp only [unquotedStop, Bool.or_eq_false_iff, decide_eq_false_iff_not] at hv0
    obtain ⟨⟨⟨⟨⟨⟨hdq, hsq⟩, hgt⟩, hspc⟩, htab⟩, hcr⟩, hlf⟩ := hv0
    have hsp2 : spaces ((v0 :: val') ++ rest) = (v0 :: val') ++ rest := by
      rw [List.cons_append, spaces, List.dropWhile_cons_of_neg]
      simp [hspc, htab, hcr, hlf]
    have hw := takeWhile_dropWhile_append (fun c => !unquotedStop c) (v0 :: val') rest
      (fun c hc => by simp [hstop c hc])
      (fun c hc => by simp [hrest c hc])
    have hu : unquoted_attribute_value ((v0 :: val') ++ rest) =
        some (rest, v0 :: val') := by
      rw [List.cons_append, unquoted_attribute_value, if_neg (by simp [hdq, hsq])]
      rw [← List.cons_append, hw.1, hw.2]
    have hval : attribute_value ((v0 :: val') ++ rest) =
        some (rest, (v0 :: val', false)) := by
      rw [attribute_value, hu]
    simp only [eventsAttribute, attribute_parse_value, hname, hsp, hsp2, hval,
      Bool.false_eq_true, if_false, Option.map_some']

/-- `Data` from `src/data.rs`: character data taken literally (`CData`) or
with references still to be expanded (`RcData`). -/
inductive Data
  | CData (s : Str)
  | RcData (s : Str)
  deriving DecidableEq, Repr

/-- `Data::expand_character_references` from `src/data.rs`: expand `RcData`
through `entities::expand_character_references`, yielding `CData`; `CData` is
returned unaltered.  The borrow-vs-own bookkeeping only affects ownership. -/
def Data.expandCharacterReferences : Data → Except EntityError Data
  | .CData s => .ok (.CData s)
  | .RcData s =>
    match expand_character_references s with
    | .ok cow => .ok (.CData cow.str)
    | .error e => .error e

/-- The event type as used by `src/de/mod.rs` (this module is from an earlier
library snapshot whose `SgmlEvent` had tuple variants and `Data` payloads). -/
inductive DeEvent
  | MarkupDeclaration (s : Str)
  | ProcessingInstruction (s : Str)
  | MarkedSection (status_keywords : Str) (content : Str)
  | OpenStartTag (name : Str)
  | Attribute (key : Str) (value : Option Data)
  | CloseStartTag
  | XmlCloseEmptyElement
  | EndTag (name : Str)
  | Character (data : Data)
  deriving DecidableEq, Repr

/-- `DeserializationError` from `src/de/mod.rs` (numeric-parse variants
omitted; they are not reachable from the embedded functions). -/
inductive DeserializationError
  | UnexpectedEof
  | EmptyStack
  | ExpectedStartTag
  | MismatchedCloseTag (expected found : Str)
  | UnsupportedTag (tag : DeEvent)
  | EntityErr (source : EntityError)
  | UnexpectedMarkedSection
  | Message (msg : Str)
  deriving DecidableEq, Repr

/-- `transforms::extract_data_marked_section` from
`src/transforms/marked_sections.rs`: only a single bare `CDATA` or `RCDATA`
keyword (case-insensitive) yields `Data`; anything else returns the content
as an error. -/
def extract_data_marked_section (status_keywords : Str) (content : Str) :
    Except Str Data :=
  if eqIgnoreAsciiCase status_keywords "CDATA".data then .ok (.CData content)
  else if eqIgnoreAsciiCase status_keywords "RCDATA".data then .ok (.RcData content)
  else .error content

mutual

/-- `SgmlDeserializer::normalize_at_cursor` from `src/de/mod.rs`
(lines 200-234), with the deserializer state reduced to the event vector and
the cursor: expands character data and attribute values, skips markup
declarations and processing instructions (advancing the cursor), converts
`CDATA`/`RCDATA` marked sections into `Character` events, rejects other
marked sections with `UnexpectedMarkedSection`, and rejects empty start and
end tags with `UnsupportedTag`. -/
def normalize_at_cursor (events : List DeEvent) (pos : Nat) :
    Except DeserializationError (List DeEvent × Nat) :=
  match events[pos]? with
  | none => .ok (events, pos)
  | some e =>
    match e with
    | .Character d =>
      match d.expandCharacterReferences with
      | .ok d' => .ok (events.set pos (.Character d'), pos)
      | .error err => .error (.EntityErr err)
    | .Attribute k (some v) =>
      match v.expandCharacterReferences with
      | .ok v' => .ok (events.set pos (.Attribute k (some v')), pos)
      | .error err => .error (.EntityErr err)
    | .MarkupDeclaration _ => advance events pos
    | .ProcessingInstruction _ => advance events pos
    | .MarkedSection kw content =>
      match extract_data_marked_section kw content with
      | .ok d =>
        match d.expandCharacterReferences with
        | .ok d' => .ok (events.set pos (.Character d'), pos)
        | .error err => .error (.EntityErr err)
      | .error _ => .error .UnexpectedMarkedSection
    | .OpenStartTag nm =>
      if nm = [] then .error (.UnsupportedTag (.OpenStartTag nm)) else .ok (events, pos)
    | .EndTag nm =>
      if nm = [] then .error (.UnsupportedTag (.EndTag nm)) else .ok (events, pos)
    | _ => .ok (events, pos)
termination_by 2 * (events.length + 1 - pos) + 1

/-- `SgmlDeserializer::advance` from `src/de/mod.rs`: step the cursor and
re-normalize, or fail with `UnexpectedEof` past the end. -/
def advance (events : List DeEvent) (pos : Nat) :
    Except DeserializationError (List DeEvent × Nat) :=
  if pos < events.length then normalize_at_cursor events (pos + 1)
  else .error .UnexpectedEof
termination_by 2 * (events.length + 1 - pos)

end

/-- CLAIM C4 (counterexample): a processing-instruction event at the cursor is
not surfaced as an `Unsupported` error — it is consumed: the cursor advances
past it and normalization succeeds. -/
theorem normalize_at_cursor_consumes_processing_instruction :
    normalize_at_cursor [.ProcessingInstruction "<?x>".data] 0 =
      .ok ([.ProcessingInstruction "<?x>".data], 1) := by
  simp [normalize_at_cursor, advance]

/-- CLAIM C4 (amended): at the cursor, an empty start tag or empty end tag is
surfaced as an `UnsupportedTag` error; a markup declaration or processing
instruction is *skipped* (the cursor advances past it), not an error; a
marked section whose keywords are exactly `CDATA` (case-insensitive) is
converted in place into a `Character` event, one whose keywords are exactly
`RCDATA` is converted with character references expanded, and any other
marked section is rejected with `UnexpectedMarkedSection`. -/
theorem normalize_at_cursor_cases (events : List DeEvent) (pos : Nat) :
    (∀ nm, events[pos]? = some (.OpenStartTag nm) → nm = [] →
      normalize_at_cursor events pos = .error (.UnsupportedTag (.OpenStartTag nm)))
    ∧ (∀ nm, events[pos]? = some (.EndTag nm) → nm = [] →
      normalize_at_cursor events pos = .error (.UnsupportedTag (.EndTag nm)))
    ∧ (∀ s, events[pos]? = some (.ProcessingInstruction s) →
      normalize_at_cursor events pos = normalize_at_cursor events (pos + 1))
    ∧ (∀ s, events[pos]? = some (.MarkupDeclaration s) →
      normalize_at_cursor events pos = normalize_at_cursor events (pos + 1))
    ∧ (∀ kw content, events[pos]? = some (.MarkedSection kw content) →
      (eqIgnoreAsciiCase kw "CDATA".data = true →
        normalize_at_cursor events pos =
          .ok (events.set pos (.Character (.CData content)), pos))
      ∧ (eqIgnoreAsciiCase kw "RCDATA".data = true →
        normalize_at_cursor events pos =
          match expand_character_references content with
          | .ok cow => .ok (events.set pos (.Character (.CData cow.str)), pos)
          | .error e => .error (.EntityErr e))
      ∧ ((¬ eqIgnoreAsciiCase kw "CDATA".data = true) →
        (¬ eqIgnoreAsciiCase kw "RCDATA".data = true) →
        normalize_at_cursor events pos = .error .UnexpectedMarkedSection)) := by
  have hlt : ∀ (e : DeEvent), events[pos]? = some e → pos < events.length := by
    intro e he
    by_contra hge
    rw [List.getElem?_eq_none (by omega)] at he
    exact absurd he (by simp)
  refine ⟨?_, ?_, ?_, ?_, ?_⟩
  · intro nm he hnm
    rw [normalize_at_cursor, he, hnm]
    rfl
  · intro nm he hnm
    rw [normalize_at_cursor, he, hnm]
    rfl
  · intro s he
    rw [normalize_at_cursor, he]
    show advance events pos = _
    rw [advance, if_pos (hlt _ he)]
  · intro s he
    rw [normalize_at_cursor, he]
    show advance events pos = _
    rw [advance, if_pos (hlt _ he)]
  · intro kw content he
    refine ⟨?_, ?_, ?_⟩
    · intro hkw
      simp only [normalize_at_cursor, he]
      rw [extract_data_marked_section, if_pos hkw]
      rfl
    · intro hkw
      have hnc : ¬ eqIgnoreAsciiCase kw "CDATA".data = true := by
        intro hc
        simp only [eqIgnoreAsciiCase, decide_eq_true_eq] at hc hkw
        exact absurd (hc.symm.trans hkw) (by decide)
      simp only [normalize_at_cursor, he]
      rw [extract_data_marked_section, if_neg hnc, if_pos hkw]
      rcases hec : expand_character_references content with e | cow <;>
        simp only [Data.expandCharacterReferences, hec]
    · intro hnc hnr
      simp only [normalize_at_cursor, he]
      rw [extract_data_marked_section, if_neg hnc, if_neg hnr]

/-- Witness for the amended C4 at concrete one-event inputs: a processing
instruction is skipped, a `CDATA` marked section becomes a `Character` event,
an `INCLUDE`-keyword marked section is rejected, and an empty start tag is an
`UnsupportedTag` error. -/
theorem normalize_at_cursor_cases_witness :
    normalize_at_cursor [.ProcessingInstruction "<?x>".data] 0 =
      normalize_at_cursor [.ProcessingInstruction "<?x>".data] 1
    ∧ normalize_at_cursor [.MarkedSection "CDATA".data "x<y".data] 0 =
        .ok ([.Character (.CData "x<y".data)], 0)
    ∧ normalize_at_cursor [.MarkedSection "INCLUDE".data "x".data] 0 =
        .error .UnexpectedMarkedSection
    ∧ normalize_at_cursor [.OpenStartTag []] 0 =
        .error (.UnsupportedTag (.OpenStartTag [])) :=
  ⟨(normalize_at_cursor_cases [.ProcessingInstruction "<?x>".data] 0).2.2.1 _ rfl,
   ((normalize_at_cursor_cases [.MarkedSection "CDATA".data "x<y".data] 0).2.2.2.2
     _ _ rfl).1 (by decide),
   ((normalize_at_cursor_cases [.MarkedSection "INCLUDE".data "x".data] 0).2.2.2.2
     _ _ rfl).2.2 (by decide) (by decide),
   (normalize_at_cursor_cases [.OpenStartTag []] 0).1 _ rfl rfl⟩

/-- Witness for C8, mirroring the spec's scenario 6: with an entity lookup
mapping `amp` to `&`, the quoted `href='&amp;x'` yields the expanded value
`&x`, while the unquoted `href=&amp;x>` yields the literal `&amp;x`. -/
theorem attribute_quoted_expands_unquoted_verbatim_witness :
    eventsAttribute
        ⟨.Unchanged, some fun n => if n = "amp".data then some "&".data else none⟩
        "href='&amp;x'>".data =
      some (">".data, SgmlEvent.Attribute "href".data (some (.owned "&x".data)))
    ∧ eventsAttribute
        ⟨.Unchanged, some fun n => if n = "amp".data then some "&".data else none⟩
        "href=&amp;x>".data =
      some (">".data, SgmlEvent.Attribute "href".data (some (.borrowed "&amp;x".data))) := by
  constructor
  · have h := attribute_quoted_expands_unquoted_verbatim.1
      ⟨.Unchanged, some fun n => if n = "amp".data then some "&".data else none⟩
      "href".data "&amp;x".data ">".data (by decide) (by decide)
    exact h.trans (by rfl)
  · have h := attribute_quoted_expands_unquoted_verbatim.2
      ⟨.Unchanged, some fun n => if n = "amp".data then some "&".data else none⟩
      "href".data "&amp;x".data ">".data (by decide) (by decide)
      (by decide) (by intro c hc; cases hc; rfl)
    exact h

/-- The `MARKED_SECTION_START` constant of `src/parser/raw.rs`: `<![`. -/
def MARKED_SECTION_START : Str := ['<', '!', '[']

/-- The `MARKED_SECTION_END` constant of `src/parser/raw.rs`: `]]>`. -/
def MARKED_SECTION_END : Str := [']', ']', '>']

/-- `raw::marked_section_body_character_data`: text up to (and consuming) the
first `]]>`, failing when there is none; returns `(suffix, matched)`. -/
def marked_section_body_character_data (input : Str) : Option (Str × Str) :=
  (splitFirst MARKED_SECTION_END input).map fun p => (p.2, p.1)

/-- Fuel-indexed body of `raw::marked_section_body_ignore`: find the first
`]]>`; if a `<![` occurs before it, recursively skip that nested pair and then
continue from the spot after it, otherwise the first `]]>` closes the body.
Returns `(final_suffix, matched_body)` like the nom parser. -/
def msbiFuel : Nat → Str → Option (Str × Str)
  | 0, _ => none
  | fuel+1, input =>
    match marked_section_body_character_data input with
    | none => none
    | some (closeSuffix, closeMatch) =>
      match findSub MARKED_SECTION_START closeMatch with
      | some n =>
        match msbiFuel fuel (input.drop (n + 3)) with
        | none => none
        | some (s1, _) =>
          match msbiFuel fuel s1 with
          | none => none
          | some (s2, _) => some (s2, input.take (input.length - s2.length - 3))
      | none => some (closeSuffix, closeMatch)

/-- `raw::marked_section_body_ignore` from `src/parser/raw.rs` (lines
128-148); the fuel `input.length + 1` is enough for the recursion, as the
monotonicity lemmas below show. -/
def marked_section_body_ignore (input : Str) : Option (Str × Str) :=
  msbiFuel (input.length + 1) input

/-- Specification-side scanner, written from the claim: walk the input
keeping a net depth of `<![`/`]]>` pairs; a `]]>` at depth 0 terminates
(that is where the depth would return to -1), anything else is accumulated
into the body.  Returns `(body, remainder)`. -/
def scanIgnoreFuel : Nat → Nat → Str → Option (Str × Str)
  | 0, _, _ => none
  | fuel+1, d, input =>
    if startsWithTok MARKED_SECTION_END input then
      if d = 0 then some ([], input.drop 3)
      else (scanIgnoreFuel fuel (d-1) (input.drop 3)).map fun p =>
        (MARKED_SECTION_END ++ p.1, p.2)
    else if startsWithTok MARKED_SECTION_START input then
      (scanIgnoreFuel fuel (d+1) (input.drop 3)).map fun p =>
        (MARKED_SECTION_START ++ p.1, p.2)
    else
      match input with
      | [] => none
      | c :: rest => (scanIgnoreFuel fuel d rest).map fun p => (c :: p.1, p.2)

/-- The depth scan at its sufficient fuel. -/
def scanIgnore (d : Nat) (input : Str) : Option (Str × Str) :=
  scanIgnoreFuel (input.length + 1) d input

lemma startsWithTok_length (pat : Str) : ∀ l : Str, startsWithTok pat l = true →
    pat.length ≤ l.length := by
  induction pat with
  | nil => intro l _; simp
  | cons p ps ih =>
    intro l h
    cases l with
    | nil => exact absurd h (by simp [startsWithTok])
    | cons c cs =>
      simp only [startsWithTok, Bool.and_eq_true] at h
      simpa using ih cs h.2

lemma startsWithTok_iff_append (pat : Str) : ∀ l : Str,
    startsWithTok pat l = true ↔ ∃ t, l = pat ++ t := by
  induction pat with
  | nil => intro l; simp [startsWithTok]
  | cons p ps ih =>
    intro l
    cases l with
    | nil =>
      simp only [startsWithTok]
      constructor
      · intro h; exact absurd h (by simp)
      · rintro ⟨t, ht⟩; exact absurd ht (by simp)
    | cons c cs =>
      simp only [startsWithTok, Bool.and_eq_true, decide_eq_true_eq, ih cs]
      constructor
      · rintro ⟨rfl, t, rfl⟩; exact ⟨t, rfl⟩
      · rintro ⟨t, ht⟩
        rw [List.cons_append] at ht
        injection ht with h1 h2
        exact ⟨h1.symm, t, h2⟩

lemma scanIgnoreFuel_mono : ∀ (len f f' d : Nat) (x : Str), x.length ≤ len →
    x.length < f → x.length < f' → scanIgnoreFuel f d x = scanIgnoreFuel f' d x := by
  intro len
  induction len with
  | zero =>
    intro f f' d x hx hf hf'
    have hx0 : x = [] := List.eq_nil_of_length_eq_zero (by omega)
    subst hx0
    rcases f with _ | a
    · omega
    rcases f' with _ | b
    · omega
    simp [scanIgnoreFuel, startsWithTok, MARKED_SECTION_END, MARKED_SECTION_START]
  | succ len ih =>
    intro f f' d x hx hf hf'
    rcases f with _ | a
    · omega
    rcases f' with _ | b
    · omega
    simp only [scanIgnoreFuel]
    split_ifs with hEnd hd0 hStart
    · rfl
    · have h3 : 3 ≤ x.length := by
        simpa [MARKED_SECTION_END] using startsWithTok_length _ _ hEnd
      rw [ih a b (d-1) (x.drop 3) (by simp; omega) (by simp; omega) (by simp; omega)]
    · have h3 : 3 ≤ x.length := by
        simpa [MARKED_SECTION_START] using startsWithTok_length _ _ hStart
      rw [ih a b (d+1) (x.drop 3) (by simp; omega) (by simp; omega) (by simp; omega)]
    · cases x with
      | nil => rfl
      | cons c rest =>
        simp only [List.length_cons] at hx hf hf'
        have := ih a b d rest (by omega) (by omega) (by omega)
        simp only [this]

lemma scanIgnoreFuel_succ (fuel d : Nat) (x : Str) :
    scanIgnoreFuel (fuel+1) d x =
      if startsWithTok MARKED_SECTION_END x then
        if d = 0 then some ([], x.drop 3)
        else (scanIgnoreFuel fuel (d-1) (x.drop 3)).map fun p =>
          (MARKED_SECTION_END ++ p.1, p.2)
      else if startsWithTok MARKED_SECTION_START x then
        (scanIgnoreFuel fuel (d+1) (x.drop 3)).map fun p =>
          (MARKED_SECTION_START ++ p.1, p.2)
      else
        match x with
        | [] => none
        | c :: rest => (scanIgnoreFuel fuel d rest).map fun p => (c :: p.1, p.2) := rfl

/-- One unfolding step of the depth scan, with all recursive calls back at
their canonical fuel. -/
lemma scanIgnore_step (d : Nat) (x : Str) :
    scanIgnore d x =
      if startsWithTok MARKED_SECTION_END x then
        if d = 0 then some ([], x.drop 3)
        else (scanIgnore (d-1) (x.drop 3)).map fun p => (MARKED_SECTION_END ++ p.1, p.2)
      else if startsWithTok MARKED_SECTION_START x then
        (scanIgnore (d+1) (x.drop 3)).map fun p => (MARKED_SECTION_START ++ p.1, p.2)
      else
        match x with
        | [] => none
        | c :: rest => (scanIgnore d rest).map fun p => (c :: p.1, p.2) := by
  rw [scanIgnore, scanIgnoreFuel_succ]
  split_ifs with hEnd hd0 hStart
  · rfl
  · have h3 : 3 ≤ x.length := by
      simpa [MARKED_SECTION_END] using startsWithTok_length _ _ hEnd
    rw [scanIgnoreFuel_mono x.length x.length ((x.drop 3).length + 1) (d-1) (x.drop 3)
      (by simp only [List.length_drop]; omega) (by simp only [List.length_drop]; omega)
      (by omega)]
    rfl
  · have h3 : 3 ≤ x.length := by
      simpa [MARKED_SECTION_START] using startsWithTok_length _ _ hStart
    rw [scanIgnoreFuel_mono x.length x.length ((x.drop 3).length + 1) (d+1) (x.drop 3)
      (by simp only [List.length_drop]; omega) (by simp only [List.length_drop]; omega)
      (by omega)]
    rfl
  · cases x with
    | nil => rfl
    | cons c rest => rfl

lemma msbiFuel_succ (fuel : Nat) (x : Str) :
    msbiFuel (fuel+1) x =
      match marked_section_body_character_data x with
      | none => none
      | some (closeSuffix, closeMatch) =>
        match findSub MARKED_SECTION_START closeMatch with
        | some n =>
          match msbiFuel fuel (x.drop (n + 3)) with
          | none => none
          | some (s1, _) =>
            match msbiFuel fuel s1 with
            | none => none
            | some (s2, _) => some (s2, x.take (x.length - s2.length - 3))
        | none => some (closeSuffix, closeMatch) := rfl

lemma findSub_some_spec (pat : Str) : ∀ (l : Str) (n : Nat), findSub pat l = some n →
    startsWithTok pat (l.drop n) = true ∧
      ∀ m, m < n → startsWithTok pat (l.drop m) = false := by
  intro l
  induction l with
  | nil =>
    intro n h
    rw [findSub] at h
    by_cases hp : pat.isEmpty = true
    · rw [if_pos hp] at h
      injection h with h
      subst h
      refine ⟨?_, fun m hm => absurd hm (by omega)⟩
      have hpe : pat = [] := by simpa using hp
      subst hpe
      rfl
    · rw [if_neg hp] at h
      exact absurd h (by simp)
  | cons c rest ih =>
    intro n h
    rw [findSub] at h
    by_cases hp : startsWithTok pat (c :: rest) = true
    · rw [if_pos hp] at h
      injection h with h
      subst h
      exact ⟨hp, fun m hm => absurd hm (by omega)⟩
    · rw [if_neg hp] at h
      rcases ho : findSub pat rest with _ | k
      · rw [ho] at h; exact absurd h (by simp)
      · rw [ho] at h
        simp only [Option.map_some'] at h
        injection h with h
        subst h
        have hk := ih k ho
        refine ⟨by simpa using hk.1, ?_⟩
        intro m hm
        cases m with
        | zero => simpa using hp
        | succ j =>
          have := hk.2 j (by omega)
          simpa using this

lemma findSub_none_spec (pat : Str) (hpat : pat ≠ []) : ∀ l : Str,
    findSub pat l = none → ∀ m, startsWithTok pat (l.drop m) = false := by
  intro l
  induction l with
  | nil =>
    intro _ m
    rcases pat with _ | ⟨p, ps⟩
    · exact absurd rfl hpat
    · simp [startsWithTok]
  | cons c rest ih =>
    intro h m
    rw [findSub] at h
    by_cases hp : startsWithTok pat (c :: rest) = true
    · rw [if_pos hp] at h
      exact absurd h (by simp)
    · rw [if_neg hp] at h
      have ho : findSub pat rest = none := Option.map_eq_none'.mp h
      cases m with
      | zero => simpa using hp
      | succ j => simpa using ih ho j

lemma msbiFuel_suffix_length : ∀ (f : Nat) (x s b : Str),
    msbiFuel f x = some (s, b) → s.length + 3 ≤ x.length := by
  intro f
  induction f with
  | zero => intro x s b h; exact absurd h (by simp [msbiFuel])
  | succ f ih =>
    intro x s b h
    rw [msbiFuel_succ] at h
    rcases hm : marked_section_body_character_data x with _ | ⟨cs, cm⟩
    · simp [hm] at h
    simp only [hm] at h
    rw [marked_section_body_character_data, splitFirst] at hm
    rcases hfs : findSub MARKED_SECTION_END x with _ | p
    · rw [hfs] at hm; exact absurd hm (by simp)
    rw [hfs] at hm
    simp only [Option.map_some'] at hm
    injection hm with hm
    have hp3 : p + 3 ≤ x.length := by
      have hsw := (findSub_some_spec _ x p hfs).1
      have := startsWithTok_length _ _ hsw
      simp only [MARKED_SECTION_END, List.length_cons, List.length_nil,
        List.length_drop] at this
      omega
    have hcs : cs = x.drop (p + 3) := by
      have := congrArg Prod.fst hm
      simpa [MARKED_SECTION_END] using this.symm
    rcases hfo : findSub MARKED_SECTION_START cm with _ | n
    · simp only [hfo] at h
      injection h with h
      injection h with h1 h2
      subst h1
      rw [hcs]
      simp only [List.length_drop]
      omega
    · simp only [hfo] at h
      rcases h1 : msbiFuel f (x.drop (n + 3)) with _ | ⟨s1, b1⟩
      · simp [h1] at h
      simp only [h1] at h
      rcases h2 : msbiFuel f s1 with _ | ⟨s2, b2⟩
      · simp [h2] at h
      simp only [h2] at h
      injection h with h
      injection h with hs hb
      subst hs
      have l1 := ih _ _ _ h1
      have l2 := ih _ _ _ h2
      simp only [List.length_drop] at l1
      omega

lemma msbiFuel_mono : ∀ (len f f' : Nat) (x : Str), x.length ≤ len →
    x.length < f → x.length < f' → msbiFuel f x = msbiFuel f' x := by
  intro len
  induction len with
  | zero =>
    intro f f' x hx hf hf'
    have hx0 : x = [] := List.eq_nil_of_length_eq_zero (by omega)
    subst hx0
    rcases f with _ | a
    · omega
    rcases f' with _ | b
    · omega
    simp [msbiFuel_succ, marked_section_body_character_data, splitFirst, findSub,
      MARKED_SECTION_END]
  | succ len ih =>
    intro f f' x hx hf hf'
    rcases f with _ | a
    · omega
    rcases f' with _ | b
    · omega
    rw [msbiFuel_succ, msbiFuel_succ]
    rcases hm : marked_section_body_character_data x with _ | ⟨cs, cm⟩
    · simp [hm]
    simp only [hm]
    rw [marked_section_body_character_data, splitFirst] at hm
    rcases hfs : findSub MARKED_SECTION_END x with _ | p
    · rw [hfs] at hm; exact absurd hm (by simp)
    rw [hfs] at hm
    simp only [Option.map_some'] at hm
    injection hm with hm
    have hp3 : p + 3 ≤ x.length := by
      have hsw := (findSub_some_spec _ x p hfs).1
      have := startsWithTok_length _ _ hsw
      simp only [MARKED_SECTION_END, List.length_cons, List.length_nil,
        List.length_drop] at this
      omega
    rcases hfo : findSub MARKED_SECTION_START cm with _ | n
    · simp [hfo]
    simp only [hfo]
    have hd1 : (x.drop (n + 3)).length ≤ len := by simp only [List.length_drop]; omega
    have e1 := ih a b (x.drop (n + 3)) hd1
      (by simp only [List.length_drop]; omega) (by simp only [List.length_drop]; omega)
    rw [e1]
    rcases h1 : msbiFuel b (x.drop (n + 3)) with _ | ⟨s1, b1⟩
    · simp [h1]
    simp only [h1]
    have hs1 := msbiFuel_suffix_length _ _ _ _ h1
    simp only [List.length_drop] at hs1
    have e2 := ih a b s1 (by omega) (by omega) (by omega)
    rw [e2]

/-- One unfolding step of `marked_section_body_ignore`, with the recursive
calls back at their canonical fuel. -/
lemma msbi_step (x : Str) :
    marked_section_body_ignore x =
      match marked_section_body_character_data x with
      | none => none
      | some (closeSuffix, closeMatch) =>
        match findSub MARKED_SECTION_START closeMatch with
        | some n =>
          match marked_section_body_ignore (x.drop (n + 3)) with
          | none => none
          | some (s1, _) =>
            match marked_section_body_ignore s1 with
            | none => none
            | some (s2, _) => some (s2, x.take (x.length - s2.length - 3))
        | none => some (closeSuffix, closeMatch) := by
  rw [marked_section_body_ignore, msbiFuel_succ]
  rcases hm : marked_section_body_character_data x with _ | ⟨cs, cm⟩
  · simp [hm]
  simp only [hm]
  rw [marked_section_body_character_data, splitFirst] at hm
  rcases hfs : findSub MARKED_SECTION_END x with _ | p
  · rw [hfs] at hm; exact absurd hm (by simp)
  rw [hfs] at hm
  simp only [Option.map_some'] at hm
  injection hm with hm
  have hp3 : p + 3 ≤ x.length := by
    have hsw := (findSub_some_spec _ x p hfs).1
    have := startsWithTok_length _ _ hsw
    simp only [MARKED_SECTION_END, List.length_cons, List.length_nil,
      List.length_drop] at this
    omega
  rcases hfo : findSub MARKED_SECTION_START cm with _ | n
  · simp [hfo]
  simp only [hfo]
  have e1 := msbiFuel_mono x.length x.length ((x.drop (n+3)).length + 1) (x.drop (n + 3))
    (by simp only [List.length_drop]; omega) (by simp only [List.length_drop]; omega)
    (by omega)
  rw [show marked_section_body_ignore (x.drop (n+3)) =
    msbiFuel x.length (x.drop (n+3)) from e1.symm]
  rcases h1 : msbiFuel x.length (x.drop (n + 3)) with _ | ⟨s1, b1⟩
  · simp [h1]
  simp only [h1]
  have hs1 := msbiFuel_suffix_length _ _ _ _ h1
  simp only [List.length_drop] at hs1
  have e2 := msbiFuel_mono x.length x.length (s1.length + 1) s1
    (by omega) (by omega) (by omega)
  rw [e2]
  rfl

lemma scanIgnore_nil (d : Nat) : scanIgnore d [] = none := rfl

lemma scanIgnore_structure : ∀ (len : Nat) (x : Str) (d : Nat) (b r : Str),
    x.length ≤ len → scanIgnore d x = some (b, r) →
    x = b ++ MARKED_SECTION_END ++ r := by
  intro len
  induction len with
  | zero =>
    intro x d b r hx h
    have hx0 : x = [] := List.eq_nil_of_length_eq_zero (by omega)
    subst hx0
    rw [scanIgnore_nil] at h
    exact absurd h (by simp)
  | succ len ih =>
    intro x d b r hx h
    rw [scanIgnore_step] at h
    by_cases hEnd : startsWithTok MARKED_SECTION_END x = true
    · rw [if_pos hEnd] at h
      obtain ⟨t, ht⟩ := (startsWithTok_iff_append _ _).mp hEnd
      have hdrop : x.drop 3 = t := by rw [ht]; simp [MARKED_SECTION_END]
      have h3 : 3 ≤ x.length := by
        simpa [MARKED_SECTION_END] using startsWithTok_length _ _ hEnd
      by_cases hd0 : d = 0
      · rw [if_pos hd0] at h
        injection h with h
        injection h with h1 h2
        subst h1
        rw [ht, hdrop.symm, h2]
        rfl
      · rw [if_neg hd0] at h
        rcases hs : scanIgnore (d-1) (x.drop 3) with _ | ⟨b', r'⟩
        · rw [hs] at h; exact absurd h (by simp)
        rw [hs] at h
        simp only [Option.map_some'] at h
        injection h with h
        injection h with h1 h2
        subst h1
        subst h2
        have hstruct := ih (x.drop 3) (d-1) b' r'
          (by simp only [List.length_drop]; omega) hs
        have hteq := hdrop.symm.trans hstruct
        rw [ht, hteq]
        simp [List.append_assoc]
    · rw [if_neg hEnd] at h
      by_cases hStart : startsWithTok MARKED_SECTION_START x = true
      · rw [if_pos hStart] at h
        obtain ⟨t, ht⟩ := (startsWithTok_iff_append _ _).mp hStart
        have hdrop : x.drop 3 = t := by rw [ht]; simp [MARKED_SECTION_START]
        have h3 : 3 ≤ x.length := by
          simpa [MARKED_SECTION_START] using startsWithTok_length _ _ hStart
        rcases hs : scanIgnore (d+1) (x.drop 3) with _ | ⟨b', r'⟩
        · rw [hs] at h; exact absurd h (by simp)
        rw [hs] at h
        simp only [Option.map_some'] at h
        injection h with h
        injection h with h1 h2
        subst h1
        subst h2
        have hstruct := ih (x.drop 3) (d+1) b' r'
          (by simp only [List.length_drop]; omega) hs
        have hteq := hdrop.symm.trans hstruct
        rw [ht, hteq]
        simp [List.append_assoc]
      · rw [if_neg hStart] at h
        cases x with
        | nil => exact absurd h (by simp)
        | cons c rest =>
          have h' : (scanIgnore d rest).map (fun p => (c :: p.1, p.2)) = some (b, r) := h
          rcases hs : scanIgnore d rest with _ | ⟨b', r'⟩
          · rw [hs] at h'; exact absurd h' (by simp)
          rw [hs] at h'
          simp only [Option.map_some'] at h'
          injection h' with h'
          injection h' with h1 h2
          subst h1
          subst h2
          have hstruct := ih rest d b' r' (by simp at hx; omega) hs
          rw [hstruct]
          rfl

lemma scanIgnore_prefix : ∀ (n : Nat) (x : Str) (d : Nat), n ≤ x.length →
    (∀ m, m < n → startsWithTok MARKED_SECTION_END (x.drop m) = false ∧
      startsWithTok MARKED_SECTION_START (x.drop m) = false) →
    scanIgnore d x = (scanIgnore d (x.drop n)).map fun p => (x.take n ++ p.1, p.2) := by
  intro n
  induction n with
  | zero =>
    intro x d _ _
    rcases h : scanIgnore d x with _ | p
    · simp [h]
    · simp [h]
  | succ n ih =>
    intro x d hn htok
    cases x with
    | nil => simp at hn
    | cons c x' =>
      have h0 := htok 0 (by omega)
      simp only [List.drop_zero] at h0
      rw [scanIgnore_step, if_neg (by simp [h0.1]), if_neg (by simp [h0.2])]
      have hshift : ∀ m, m < n → startsWithTok MARKED_SECTION_END (x'.drop m) = false ∧
          startsWithTok MARKED_SECTION_START (x'.drop m) = false := by
        intro m hm
        have := htok (m+1) (by omega)
        simpa using this
      show (scanIgnore d x').map (fun p => (c :: p.1, p.2)) = _
      rw [ih x' d (by simp at hn; omega) hshift]
      rcases h1 : scanIgnore d (x'.drop n) with _ | p
      · simp [h1]
      · simp [h1]

lemma scanIgnore_depth : ∀ (len : Nat) (t : Str) (d : Nat), t.length ≤ len →
    scanIgnore (d+1) t = (scanIgnore 0 t).bind fun p =>
      (scanIgnore d p.2).map fun q => (p.1 ++ MARKED_SECTION_END ++ q.1, q.2) := by
  intro len
  induction len with
  | zero =>
    intro t d ht
    have ht0 : t = [] := List.eq_nil_of_length_eq_zero (by omega)
    subst ht0
    rw [scanIgnore_nil, scanIgnore_nil]
    rfl
  | succ len ih =>
    intro t d ht
    by_cases hEnd : startsWithTok MARKED_SECTION_END t = true
    · rw [scanIgnore_step (d+1) t, scanIgnore_step 0 t, if_pos hEnd, if_pos hEnd,
        if_neg (by omega), if_pos rfl]
      cases scanIgnore d (t.drop 3) <;> simp
    · by_cases hStart : startsWithTok MARKED_SECTION_START t = true
      · rw [scanIgnore_step (d+1) t, scanIgnore_step 0 t, if_neg hEnd, if_neg hEnd,
          if_pos hStart, if_pos hStart]
        have h3 : 3 ≤ t.length := by
          simpa [MARKED_SECTION_START] using startsWithTok_length _ _ hStart
        have hlen3 : (t.drop 3).length ≤ len := by simp only [List.length_drop]; omega
        rw [ih (t.drop 3) (d+1) hlen3, ih (t.drop 3) 0 hlen3]
        rcases h1 : scanIgnore 0 (t.drop 3) with _ | ⟨b1, r1⟩
        · simp [h1]
        simp only [h1, Option.some_bind]
        have hr1 : r1.length ≤ len := by
          have hst := scanIgnore_structure (t.drop 3).length (t.drop 3) 0 b1 r1 le_rfl h1
          have hlen := congrArg List.length hst
          simp only [List.length_append, List.length_drop, MARKED_SECTION_END,
            List.length_cons, List.length_nil] at hlen
          omega
        rw [ih r1 d hr1]
        rcases h2 : scanIgnore 0 r1 with _ | ⟨b2, r2⟩
        · simp [h2]
        simp only [h2, Option.some_bind]
        rcases h3' : scanIgnore d r2 with _ | ⟨b3, r3⟩
        · simp [h3']
        simp [h3', List.append_assoc]
      · cases t with
        | nil =>
          rw [scanIgnore_nil, scanIgnore_nil]
          rfl
        | cons c rest =>
          rw [scanIgnore_step (d+1) (c :: rest), scanIgnore_step 0 (c :: rest),
            if_neg hEnd, if_neg hEnd, if_neg hStart, if_neg hStart]
          have hlen : rest.length ≤ len := by simp at ht; omega
          show (scanIgnore (d+1) rest).map (fun p => (c :: p.1, p.2)) = _
          rw [ih rest d hlen]
          rcases h1 : scanIgnore 0 rest with _ | ⟨b1, r1⟩
          · simp [h1]
          rcases h2 : scanIgnore d r1 with _ | ⟨b2, r2⟩
          · simp [h1, h2]
          simp [h1, h2]

lemma startsWithTok_take (pat : Str) : ∀ (y : Str) (k : Nat),
    startsWithTok pat (y.take k) = true ↔
      startsWithTok pat y = true ∧ pat.length ≤ k := by
  induction pat with
  | nil =>
    intro y k
    simp [startsWithTok]
  | cons p ps ih =>
    intro y k
    cases k with
    | zero =>
      simp only [List.take_zero]
      constructor
      · intro h; exact absurd h (by simp [startsWithTok])
      · rintro ⟨_, hl⟩; simp at hl
    | succ k =>
      cases y with
      | nil =>
        simp only [List.take_nil]
        constructor
        · intro h; exact absurd h (by simp [startsWithTok])
        · rintro ⟨h, _⟩; exact absurd h (by simp [startsWithTok])
      | cons c cs =>
        simp only [List.take_cons, startsWithTok, Bool.and_eq_true, decide_eq_true_eq,
          ih cs k, List.length_cons]
        constructor
        · rintro ⟨h1, h2, h3⟩; exact ⟨⟨h1, h2⟩, by omega⟩
        · rintro ⟨⟨h1, h2⟩, h3⟩; exact ⟨h1, h2, by omega⟩

lemma startsWithTok_take_drop (pat x : Str) (p m : Nat) :
    startsWithTok pat ((x.take p).drop m) = true ↔
      startsWithTok pat (x.drop m) = true ∧ pat.length ≤ p - m := by
  rw [List.drop_take, startsWithTok_take]

lemma tokens_no_overlap (x : Str) (m p : Nat)
    (hop : startsWithTok MARKED_SECTION_START (x.drop m) = true)
    (hcl : startsWithTok MARKED_SECTION_END (x.drop p) = true)
    (h1 : m < p) (h2 : p < m + 3) : False := by
  obtain ⟨t, ht⟩ := (startsWithTok_iff_append _ _).mp hop
  obtain ⟨u, hu⟩ := (startsWithTok_iff_append _ _).mp hcl
  have hd1 : x.drop (m + 1) = List.drop 1 (x.drop m) := by
    rw [List.drop_drop]
  have hd2 : x.drop (m + 2) = List.drop 2 (x.drop m) := by
    rw [List.drop_drop]
  have hp : p = m + 1 ∨ p = m + 2 := by omega
  rcases hp with hp | hp <;> subst hp
  · rw [hd1, ht] at hu
    simp [MARKED_SECTION_START, MARKED_SECTION_END] at hu
  · rw [hd2, ht] at hu
    simp [MARKED_SECTION_START, MARKED_SECTION_END] at hu

lemma msbi_eq_scan : ∀ (len : Nat) (x b r : Str), x.length ≤ len →
    scanIgnore 0 x = some (b, r) →
    marked_section_body_ignore x = some (r, b) := by
  intro len
  induction len with
  | zero =>
    intro x b r hx h
    have hx0 : x = [] := List.eq_nil_of_length_eq_zero (by omega)
    subst hx0
    rw [scanIgnore_nil] at h
    exact absurd h (by simp)
  | succ len ih =>
    intro x b r hx h
    have hstruct := scanIgnore_structure x.length x 0 b r le_rfl h
    have hbl : startsWithTok MARKED_SECTION_END (x.drop b.length) = true := by
      have hx2 : x.drop b.length = MARKED_SECTION_END ++ r := by
        rw [hstruct, List.append_assoc, List.drop_left]
      rw [hx2]
      exact (startsWithTok_iff_append _ _).mpr ⟨r, rfl⟩
    rcases hfs : findSub MARKED_SECTION_END x with _ | p
    · have := findSub_none_spec MARKED_SECTION_END (by decide) x hfs b.length
      rw [hbl] at this
      exact absurd this (by simp)
    have hspec := findSub_some_spec MARKED_SECTION_END x p hfs
    have hp3 : p + 3 ≤ x.length := by
      have hl := startsWithTok_length _ _ hspec.1
      simp only [MARKED_SECTION_END, List.length_cons, List.length_nil,
        List.length_drop] at hl
      omega
    have hmcd : marked_section_body_character_data x =
        some (x.drop (p + 3), x.take p) := by
      rw [marked_section_body_character_data, splitFirst, hfs]
      rfl
    rcases hfo : findSub MARKED_SECTION_START (x.take p) with _ | n
    · have hnost : ∀ m, m < p →
          startsWithTok MARKED_SECTION_START (x.drop m) = false := by
        intro m hm
        cases hb2 : startsWithTok MARKED_SECTION_START (x.drop m) with
        | false => rfl
        | true =>
          exfalso
          by_cases hm3 : m + 3 ≤ p
          · have hlift2 : startsWithTok MARKED_SECTION_START ((x.take p).drop m) = true :=
              (startsWithTok_take_drop MARKED_SECTION_START x p m).mpr
                ⟨hb2, by simp only [MARKED_SECTION_START, List.length_cons,
                  List.length_nil]; omega⟩
            have hnone := findSub_none_spec MARKED_SECTION_START (by decide) (x.take p) hfo m
            rw [hlift2] at hnone
            exact absurd hnone (by simp)
          · exact tokens_no_overlap x m p hb2 hspec.1 hm (by omega)
      have hpref := scanIgnore_prefix p x 0 (by omega)
        (fun m hm => ⟨hspec.2 m hm, hnost m hm⟩)
      have hstep0 : scanIgnore 0 (x.drop p) = some ([], x.drop (p + 3)) := by
        rw [scanIgnore_step, if_pos hspec.1, if_pos rfl, List.drop_drop]
      rw [hpref, hstep0] at h
      simp only [Option.map_some', List.append_nil, Option.some.injEq,
        Prod.mk.injEq] at h
      obtain ⟨hb, hr⟩ := h
      rw [msbi_step]
      simp only [hmcd]
      simp only [hfo]
      rw [hb, hr]
    · have hspecS := findSub_some_spec MARKED_SECTION_START (x.take p) n hfo
      have hlift := (startsWithTok_take_drop MARKED_SECTION_START x p n).mp hspecS.1
      have hstn : startsWithTok MARKED_SECTION_START (x.drop n) = true := hlift.1
      have hn3 : n + 3 ≤ p := by
        have := hlift.2
        simp only [MARKED_SECTION_START, List.length_cons, List.length_nil] at this
        omega
      have hnotok : ∀ m, m < n →
          startsWithTok MARKED_SECTION_END (x.drop m) = false ∧
          startsWithTok MARKED_SECTION_START (x.drop m) = false := by
        intro m hm
        refine ⟨hspec.2 m (by omega), ?_⟩
        cases hb2 : startsWithTok MARKED_SECTION_START (x.drop m) with
        | false => rfl
        | true =>
          exfalso
          have hlift2 : startsWithTok MARKED_SECTION_START ((x.take p).drop m) = true :=
            (startsWithTok_take_drop MARKED_SECTION_START x p m).mpr
              ⟨hb2, by simp only [MARKED_SECTION_START, List.length_cons,
                List.length_nil]; omega⟩
          have hfalse := hspecS.2 m hm
          rw [hlift2] at hfalse
          exact absurd hfalse (by simp)
      have hpref := scanIgnore_prefix n x 0 (by omega) hnotok
      have hnend : startsWithTok MARKED_SECTION_END (x.drop n) = false :=
        hspec.2 n (by omega)
      have hstep : scanIgnore 0 (x.drop n) =
          (scanIgnore (0+1) (x.drop (n + 3))).map fun q =>
            (MARKED_SECTION_START ++ q.1, q.2) := by
        rw [scanIgnore_step, if_neg (by simp [hnend]), if_pos hstn, List.drop_drop]
      have hdep := scanIgnore_depth (x.drop (n + 3)).length (x.drop (n + 3)) 0 le_rfl
      rw [hpref, hstep, hdep] at h
      rcases h1 : scanIgnore 0 (x.drop (n + 3)) with _ | ⟨b1, r1⟩
      · rw [h1] at h
        simp at h
      simp only [h1, Option.some_bind] at h
      rcases h2 : scanIgnore 0 r1 with _ | ⟨b2, r2⟩
      · rw [h2] at h
        simp at h
      simp only [h2, Option.map_some'] at h
      simp only [Option.some.injEq, Prod.mk.injEq] at h
      obtain ⟨hb, hr⟩ := h
      have hlen1 : (x.drop (n + 3)).length ≤ len := by
        simp only [List.length_drop]
        omega
      have ihm1 := ih (x.drop (n + 3)) b1 r1 hlen1 h1
      have hstruct1 := scanIgnore_structure (x.drop (n + 3)).length (x.drop (n + 3))
        0 b1 r1 le_rfl h1
      have hlenr1 : r1.length ≤ len := by
        have hl := congrArg List.length hstruct1
        simp only [List.length_append, List.length_drop, MARKED_SECTION_END,
          List.length_cons, List.length_nil] at hl
        omega
      have ihm2 := ih r1 b2 r2 hlenr1 h2
      rw [msbi_step]
      simp only [hmcd]
      simp only [hfo]
      simp only [ihm1]
      simp only [ihm2]
      have hblen : x.length - r2.length - 3 = b.length := by
        have hl := congrArg List.length hstruct
        have hr2 := congrArg List.length hr
        simp only [List.length_append, MARKED_SECTION_END, List.length_cons,
          List.length_nil] at hl
        omega
      have htake : x.take b.length = b := by
        conv_lhs => rw [hstruct, List.append_assoc]
        exact List.take_left b (MARKED_SECTION_END ++ r)
      rw [hblen, htake, hr]

/-- **C2.** For every input whose `<![`/`]]>` occurrences are properly
matched — formalised by the success of the spec-side net-depth scanner
`scanIgnore`, which counts the depth of `<![`/`]]>` pairs starting at 0 and
terminates exactly at the `]]>` that would take the depth to -1, yielding the
body `b` before that `]]>` and the remainder `r` after it —
`marked_section_body_ignore` consumes the text up to and including that first
unmatched `]]>` and returns the matched body (excluding the closing `]]>`)
plus the remainder after it, i.e. `some (r, b)`; moreover the input indeed
decomposes as `b ++ "]]>" ++ r`. -/
theorem marked_section_body_ignore_matches_depth_scan (x b r : Str)
    (h : scanIgnore 0 x = some (b, r)) :
    marked_section_body_ignore x = some (r, b) ∧
      x = b ++ MARKED_SECTION_END ++ r :=
  ⟨msbi_eq_scan x.length x b r le_rfl h,
   scanIgnore_structure x.length x 0 b r le_rfl h⟩

/-- Witness for C2 on the nested input `a<![b]]>c]]>d`: the depth scan stops
at the second `]]>` (the first one closes the nested `<![`), and the parser
returns the body `a<![b]]>c` with remainder `d`. -/
theorem marked_section_body_ignore_matches_depth_scan_witness :
    scanIgnore 0 "a<![b]]>c]]>d".data = some ("a<![b]]>c".data, "d".data) ∧
    marked_section_body_ignore "a<![b]]>c]]>d".data =
      some ("d".data, "a<![b]]>c".data) ∧
    "a<![b]]>c]]>d".data = "a<![b]]>c".data ++ MARKED_SECTION_END ++ "d".data :=
  ⟨by decide,
   (marked_section_body_ignore_matches_depth_scan _ _ _ (by decide)).1,
   (marked_section_body_ignore_matches_depth_scan _ _ _ (by decide)).2⟩

/-- `text::is_sgml_whitespace` from `src/text.rs`. -/
def is_sgml_whitespace (c : Char) : Bool :=
  c = ' ' || c = '\t' || c = '\r' || c = '\n'

/-- `text::is_blank` from `src/text.rs`: all characters are SGML whitespace. -/
def is_blank (s : Str) : Bool :=
  s.all is_sgml_whitespace

/-- `NormalizationError` from `src/transforms/normalize_end_tags.rs`. -/
inductive NormalizationError
  | UnpairedEndTag (name : Str)
  | EmptyTagNotSupported
  deriving DecidableEq, Repr

/-- The loop state of `normalize_end_tags`: the recorded `Transform`
insertions (in push order; `normalize_end_tags` records no deletions), the
stack of pending end-tag names (top first, matching `Vec::last`), the
`next_insertion_point` index, and the `end_xml_empty_element` marker. -/
structure NetState where
  insertions : List (Nat × SgmlEvent)
  stack : List Str
  nip : Nat
  endXml : Option Nat
  deriving DecidableEq, Repr

/-- One iteration of the reverse loop of `normalize_end_tags`, at index `i`:
returns the (possibly rewritten) event together with the updated state. -/
def netStep (i : Nat) (e : SgmlEvent) (s : NetState) :
    Except NormalizationError (SgmlEvent × NetState) :=
  match e with
  | .OpenStartTag name =>
    if name.isEmpty then .error .EmptyTagNotSupported
    else
      match s.endXml with
      | some v =>
        .ok (e, { insertions := s.insertions ++ [(v, .EndTag name)],
                  stack := s.stack, nip := i, endXml := none })
      | none =>
        match s.stack with
        | top :: rest =>
          if top = name then
            .ok (e, { insertions := s.insertions, stack := rest,
                      nip := i, endXml := none })
          else
            .ok (e, { insertions := s.insertions ++ [(s.nip, .EndTag name)],
                      stack := s.stack, nip := i, endXml := none })
        | [] =>
          .ok (e, { insertions := s.insertions ++ [(s.nip, .EndTag name)],
                    stack := [], nip := i, endXml := none })
  | .EndTag name =>
    if name.isEmpty then .error .EmptyTagNotSupported
    else .ok (e, { s with stack := name :: s.stack, nip := i })
  | .XmlCloseEmptyElement =>
    .ok (.CloseStartTag, { s with endXml := some (i + 1) })
  | .Character text =>
    if s.nip = i + 1 && is_blank text then
      .ok (e, { s with nip := i })
    else .ok (e, s)
  | _ => .ok (e, s)

/-- The reverse iteration of `normalize_end_tags` over the events at indices
`i, i+1, ...`: the state is threaded from the highest index down, so the
recursive call on the tail runs first. -/
def netLoop : List SgmlEvent → Nat → NetState →
    Except NormalizationError (List SgmlEvent × NetState)
  | [], _, s => .ok ([], s)
  | e :: rest, i, s =>
    match netLoop rest (i + 1) s with
    | .error err => .error err
    | .ok (rest', s') =>
      match netStep i e s' with
      | .error err => .error err
      | .ok (e', s'') => .ok (e' :: rest', s'')

/-- Stable insertion of one keyed element after all elements with a key not
greater than its own: the elementary step of a stable sort by key. -/
def insertSorted (a : Nat × SgmlEvent) : List (Nat × SgmlEvent) → List (Nat × SgmlEvent)
  | [] => [a]
  | b :: l => if b.1 ≤ a.1 then b :: insertSorted a l else a :: b :: l

/-- Stable sort by key, modelling `insertions.sort_by_key(|(pos, _)| *pos)`
(Rust's `sort_by_key` is stable). -/
def sortByKey (l : List (Nat × SgmlEvent)) : List (Nat × SgmlEvent) :=
  l.foldl (fun acc a => insertSorted a acc) []

/-- The insertion pass of `Transform::apply`: at original index `i`, first
emit every pending insertion recorded for index `i` (`next_if`), then the
event itself; insertions left over at the end are appended. -/
def applyGo : List (Nat × SgmlEvent) → Nat → List SgmlEvent → List SgmlEvent
  | ins, _, [] => ins.map Prod.snd
  | ins, i, e :: rest =>
    (ins.takeWhile fun p => p.1 = i).map Prod.snd ++
      e :: applyGo (ins.dropWhile fun p => p.1 = i) (i + 1) rest

/-- `Transform::apply` from `src/transforms/transform.rs`, restricted to
transforms with no deletions (the only kind `normalize_end_tags` builds):
if nothing was recorded the fragment is returned as is, otherwise the
insertions are stably sorted by position and merged in. -/
def Transform_apply (insertions : List (Nat × SgmlEvent))
    (events : List SgmlEvent) : List SgmlEvent :=
  if insertions.isEmpty then events
  else applyGo (sortByKey insertions) 0 events

/-- `normalize_end_tags` from `src/transforms/normalize_end_tags.rs`. -/
def normalize_end_tags (events : List SgmlEvent) :
    Except NormalizationError (List SgmlEvent) :=
  match netLoop events 0 ⟨[], [], events.length, none⟩ with
  | .error err => .error err
  | .ok (events', s) =>
    match s.stack with
    | name :: _ => .error (.UnpairedEndTag name)
    | [] => .ok (Transform_apply s.insertions events')

/-- The claim's checking scan: maintain a stack of open element names while
walking the fragment; an `OpenStartTag` pushes, an `EndTag` must match the
top and pops, and the fragment is balanced when the scan ends with an empty
stack. -/
def balancedScan : List SgmlEvent → List Str → Bool
  | [], stk => stk.isEmpty
  | .OpenStartTag n :: rest, stk => balancedScan rest (n :: stk)
  | .EndTag n :: rest, stk =>
    (match stk with
     | m :: stk' => if n = m then balancedScan rest stk' else false
     | [] => false)
  | _ :: rest, stk => balancedScan rest stk

/-- Events that `balancedScan` ignores. -/
def scanNeutral : SgmlEvent → Bool
  | .OpenStartTag _ => false
  | .EndTag _ => false
  | _ => true

/-- Counterexample to C1 as stated: on `<b><a></b></a-as-xml-close>` — i.e.
`[OpenStartTag b, OpenStartTag a, EndTag b, XmlCloseEmptyElement]` —
`normalize_end_tags` succeeds, but the `end_xml_empty_element` insertion
point recorded by the `XmlCloseEmptyElement` is consumed by `OpenStartTag a`
even though `EndTag b` sits in between, so the returned fragment
`[OpenStartTag b, OpenStartTag a, EndTag b, CloseStartTag, EndTag a]` is not
balanced: the claimed scan stack meets `EndTag b` while `a` is on top. -/
theorem normalize_end_tags_unbalanced_output :
    normalize_end_tags [.OpenStartTag "b".data, .OpenStartTag "a".data,
        .EndTag "b".data, .XmlCloseEmptyElement] =
      .ok [.OpenStartTag "b".data, .OpenStartTag "a".data, .EndTag "b".data,
        .CloseStartTag, .EndTag "a".data]
    ∧ balancedScan [.OpenStartTag "b".data, .OpenStartTag "a".data,
        .EndTag "b".data, .CloseStartTag, .EndTag "a".data] [] = false :=
  ⟨rfl, rfl⟩

lemma applyGo_nil_ins : ∀ (b : Nat) (T : List SgmlEvent), applyGo [] b T = T := by
  intro b T
  induction T generalizing b with
  | nil => rfl
  | cons e rest ih => simp [applyGo, ih]

lemma applyGo_gt (ins : List (Nat × SgmlEvent)) (i : Nat) (e : SgmlEvent)
    (T : List SgmlEvent) (h : ∀ p ∈ ins, i < p.1) :
    applyGo ins i (e :: T) = e :: applyGo ins (i + 1) T := by
  cases ins with
  | nil => simp [applyGo]
  | cons a l =>
    have ha : ¬ a.1 = i := by
      have := h a (by simp)
      omega
    simp [applyGo, List.takeWhile, List.dropWhile, ha]

lemma applyGo_skip (ins : List (Nat × SgmlEvent)) :
    ∀ (T : List SgmlEvent) (b q : Nat), b ≤ q → q ≤ b + T.length →
    (∀ p ∈ ins, q ≤ p.1) →
    applyGo ins b T = T.take (q - b) ++ applyGo ins q (T.drop (q - b)) := by
  intro T
  induction T with
  | nil =>
    intro b q hbq hql _
    have : q = b := by simp at hql; omega
    subst this
    simp
  | cons e rest ih =>
    intro b q hbq hql hins
    by_cases hqb : q = b
    · subst hqb
      simp
    · have hlt : b < q := by omega
      rw [applyGo_gt ins b e rest (fun p hp => lt_of_lt_of_le hlt (hins p hp))]
      rw [ih (b+1) q (by omega) (by simp at hql ⊢; omega) hins]
      have hq : q - b = (q - (b+1)) + 1 := by omega
      rw [hq, List.take_succ_cons, List.drop_succ_cons]
      rfl

lemma applyGo_insert (ins : List (Nat × SgmlEvent)) (ev : SgmlEvent) :
    ∀ (T : List SgmlEvent) (b q : Nat), b ≤ q → q ≤ b + T.length →
    (∀ p ∈ ins, q < p.1) →
    applyGo ((q, ev) :: ins) b T =
      T.take (q - b) ++ ev :: applyGo ins q (T.drop (q - b)) := by
  intro T
  induction T with
  | nil =>
    intro b q hbq hql _
    have : q = b := by simp at hql; omega
    subst this
    simp [applyGo]
  | cons e rest ih =>
    intro b q hbq hql hins
    by_cases hqb : q = b
    · subst hqb
      have hTW : List.takeWhile (fun p => decide (p.1 = q)) ins = [] := by
        cases ins with
        | nil => rfl
        | cons a l =>
          have : ¬ a.1 = q := by have := hins a (by simp); omega
          simp [List.takeWhile, this]
      have hDW : List.dropWhile (fun p => decide (p.1 = q)) ins = ins := by
        cases ins with
        | nil => rfl
        | cons a l =>
          have : ¬ a.1 = q := by have := hins a (by simp); omega
          simp [List.dropWhile, this]
      show (((q, ev) :: ins).takeWhile fun p => p.1 = q).map Prod.snd ++
        e :: applyGo (((q, ev) :: ins).dropWhile fun p => p.1 = q) (q + 1) rest = _
      simp only [Nat.sub_self, List.take_zero, List.drop_zero, List.nil_append]
      rw [applyGo_gt ins q e rest hins]
      rw [List.takeWhile_cons, List.dropWhile_cons, if_pos (by simp), if_pos (by simp),
        hTW, hDW]
      simp
    · have hlt : b < q := by omega
      have hall : ∀ p ∈ (q, ev) :: ins, b < p.1 := by
        intro p hp
        rcases List.mem_cons.mp hp with h | h
        · rw [h]; exact hlt
        · exact lt_trans hlt (hins p h)
      rw [applyGo_gt _ b e rest hall]
      rw [ih (b+1) q (by omega) (by simp at hql ⊢; omega) hins]
      have hq : q - b = (q - (b+1)) + 1 := by omega
      rw [hq, List.take_succ_cons, List.drop_succ_cons]
      rfl

lemma insertSorted_all_lt (a : Nat × SgmlEvent) (acc : List (Nat × SgmlEvent))
    (h : ∀ c ∈ acc, a.1 < c.1) : insertSorted a acc = a :: acc := by
  cases acc with
  | nil => rfl
  | cons c l =>
    have : ¬ c.1 ≤ a.1 := by have := h c (by simp); omega
    simp [insertSorted, this]

lemma foldl_insertSorted :
    ∀ (I acc : List (Nat × SgmlEvent)),
    List.Pairwise (fun a c => c.1 < a.1) I →
    (∀ a ∈ I, ∀ c ∈ acc, a.1 < c.1) →
    List.foldl (fun acc a => insertSorted a acc) acc I = I.reverse ++ acc := by
  intro I
  induction I with
  | nil => intro acc _ _; rfl
  | cons a I ih =>
    intro acc hpw hlt
    rw [List.foldl_cons, insertSorted_all_lt a acc (hlt a (by simp))]
    rw [ih (a :: acc) (List.Pairwise.sublist (by simp) hpw) ?_]
    · simp
    · intro c hc d hd
      rcases List.mem_cons.mp hd with h | h
      · rw [h]
        exact (List.pairwise_cons.mp hpw).1 c hc
      · exact hlt c (by simp [hc]) d h

lemma sortByKey_reverse (I : List (Nat × SgmlEvent))
    (h : List.Pairwise (fun a c => c.1 < a.1) I) : sortByKey I = I.reverse := by
  rw [sortByKey, foldl_insertSorted I [] h (by simp)]
  simp

lemma balancedScan_neutral_cons (e : SgmlEvent) (l : List SgmlEvent)
    (σ : List Str) (h : scanNeutral e = true) :
    balancedScan (e :: l) σ = balancedScan l σ := by
  cases e <;> first | rfl | exact absurd h (by simp [scanNeutral])

lemma balancedScan_neutral_append (N : List SgmlEvent) (R : List SgmlEvent)
    (σ : List Str) (h : ∀ e ∈ N, scanNeutral e = true) :
    balancedScan (N ++ R) σ = balancedScan R σ := by
  induction N with
  | nil => rfl
  | cons e N ih =>
    rw [List.cons_append, balancedScan_neutral_cons e _ σ (h e (by simp))]
    exact ih fun e he => h e (by simp [he])

lemma balancedScan_open (n : Str) (l : List SgmlEvent) (σ : List Str) :
    balancedScan (.OpenStartTag n :: l) σ = balancedScan l (n :: σ) := rfl

lemma balancedScan_end_match (n : Str) (l : List SgmlEvent) (σ : List Str) :
    balancedScan (.EndTag n :: l) (n :: σ) = balancedScan l σ := by
  simp [balancedScan]

/-- The loop invariant of `normalize_end_tags` (restricted to inputs without
`XmlCloseEmptyElement`), for the state after processing the suffix `T` that
starts at index `b` of a fragment of total length `len`. -/
def NetInv (len b : Nat) (T : List SgmlEvent) (s : NetState) : Prop :=
  s.endXml = none ∧ b ≤ s.nip ∧ s.nip ≤ len ∧
  (∀ e ∈ T.take (s.nip - b), scanNeutral e = true) ∧
  List.Pairwise (fun a c => c.1 < a.1) s.insertions ∧
  (∀ p ∈ s.insertions, s.nip < p.1 ∧ p.1 ≤ len) ∧
  balancedScan (applyGo s.insertions.reverse b T) s.stack = true

lemma netLoop_nil (i : Nat) (s : NetState) : netLoop [] i s = .ok ([], s) := rfl

lemma netLoop_cons (e : SgmlEvent) (rest : List SgmlEvent) (i : Nat) (s : NetState) :
    netLoop (e :: rest) i s =
      match netLoop rest (i + 1) s with
      | .error err => .error err
      | .ok (rest', s') =>
        match netStep i e s' with
        | .error err => .error err
        | .ok (e', s'') => .ok (e' :: rest', s'') := rfl

lemma scan_after_insert (I : List (Nat × SgmlEvent)) (T : List SgmlEvent)
    (b q : Nat) (name : Str) (σ : List Str)
    (hbq : b + 1 ≤ q) (hbound : q ≤ (b + 1) + T.length)
    (hstrict : ∀ p ∈ I, q < p.1)
    (hneu : ∀ e ∈ T.take (q - (b + 1)), scanNeutral e = true)
    (hscan : balancedScan (applyGo I.reverse (b + 1) T) σ = true) :
    balancedScan (applyGo (I ++ [(q, SgmlEvent.EndTag name)]).reverse b
      (SgmlEvent.OpenStartTag name :: T)) σ = true := by
  have hstrictR : ∀ p ∈ I.reverse, q < p.1 :=
    fun p hp => hstrict p (List.mem_reverse.mp hp)
  have hrev : (I ++ [(q, SgmlEvent.EndTag name)]).reverse =
      (q, SgmlEvent.EndTag name) :: I.reverse := by simp
  have hallb : ∀ p ∈ (q, SgmlEvent.EndTag name) :: I.reverse, b < p.1 := by
    intro p hp
    rcases List.mem_cons.mp hp with h | h
    · subst h
      show b < q
      omega
    · have := hstrictR p h
      omega
  rw [hrev, applyGo_gt _ b _ T hallb, balancedScan_open,
    applyGo_insert I.reverse (SgmlEvent.EndTag name) T (b + 1) q hbq hbound hstrictR,
    balancedScan_neutral_append _ _ _ hneu, balancedScan_end_match]
  rw [applyGo_skip I.reverse T (b + 1) q hbq hbound
      (fun p hp => le_of_lt (hstrictR p hp)),
    balancedScan_neutral_append _ _ _ hneu] at hscan
  exact hscan

lemma inv_step_unchanged (len b : Nat) (e : SgmlEvent) (T : List SgmlEvent)
    (s' : NetState) (hne : scanNeutral e = true)
    (hinv : NetInv len (b + 1) T s') : NetInv len b (e :: T) s' := by
  obtain ⟨hEx, hnb, hnl, hneu, hpw, hpos, hscan⟩ := hinv
  have hallb : ∀ p ∈ s'.insertions.reverse, b < p.1 := by
    intro p hp
    have := (hpos p (List.mem_reverse.mp hp)).1
    omega
  refine ⟨hEx, by omega, hnl, ?_, hpw, hpos, ?_⟩
  · have hsub : s'.nip - b = (s'.nip - (b + 1)) + 1 := by omega
    rw [hsub, List.take_succ_cons]
    intro e' he'
    rcases List.mem_cons.mp he' with h | h
    · subst h; exact hne
    · exact hneu e' h
  · rw [applyGo_gt _ b _ T hallb, balancedScan_neutral_cons _ _ _ hne]
    exact hscan

lemma inv_step_nip_reset (len b : Nat) (e : SgmlEvent) (T : List SgmlEvent)
    (s' : NetState) (hne : scanNeutral e = true)
    (hinv : NetInv len (b + 1) T s') :
    NetInv len b (e :: T) ⟨s'.insertions, s'.stack, b, none⟩ := by
  obtain ⟨hEx, hnb, hnl, hneu, hpw, hpos, hscan⟩ := hinv
  have hallb : ∀ p ∈ s'.insertions.reverse, b < p.1 := by
    intro p hp
    have := (hpos p (List.mem_reverse.mp hp)).1
    omega
  refine ⟨rfl, le_rfl, by show b ≤ len; omega, by simp, hpw, ?_, ?_⟩
  · intro p hp
    have := hpos p hp
    exact ⟨by show b < p.1; omega, this.2⟩
  · show balancedScan (applyGo s'.insertions.reverse b (e :: T)) s'.stack = true
    rw [applyGo_gt _ b _ T hallb, balancedScan_neutral_cons _ _ _ hne]
    exact hscan

lemma inv_step_end (len b : Nat) (name : Str) (T : List SgmlEvent)
    (s' : NetState) (hinv : NetInv len (b + 1) T s') :
    NetInv len b (.EndTag name :: T)
      ⟨s'.insertions, name :: s'.stack, b, none⟩ := by
  obtain ⟨hEx, hnb, hnl, hneu, hpw, hpos, hscan⟩ := hinv
  have hallb : ∀ p ∈ s'.insertions.reverse, b < p.1 := by
    intro p hp
    have := (hpos p (List.mem_reverse.mp hp)).1
    omega
  refine ⟨rfl, le_rfl, by show b ≤ len; omega, by simp, hpw, ?_, ?_⟩
  · intro p hp
    have := hpos p hp
    exact ⟨by show b < p.1; omega, this.2⟩
  · show balancedScan (applyGo s'.insertions.reverse b
      (SgmlEvent.EndTag name :: T)) (name :: s'.stack) = true
    rw [applyGo_gt _ b _ T hallb, balancedScan_end_match]
    exact hscan

lemma inv_step_open_pop (len b : Nat) (name : Str) (T : List SgmlEvent)
    (s' : NetState) (rest2 : List Str) (hstk : s'.stack = name :: rest2)
    (hinv : NetInv len (b + 1) T s') :
    NetInv len b (.OpenStartTag name :: T)
      ⟨s'.insertions, rest2, b, none⟩ := by
  obtain ⟨hEx, hnb, hnl, hneu, hpw, hpos, hscan⟩ := hinv
  have hallb : ∀ p ∈ s'.insertions.reverse, b < p.1 := by
    intro p hp
    have := (hpos p (List.mem_reverse.mp hp)).1
    omega
  refine ⟨rfl, le_rfl, by show b ≤ len; omega, by simp, hpw, ?_, ?_⟩
  · intro p hp
    have := hpos p hp
    exact ⟨by show b < p.1; omega, this.2⟩
  · show balancedScan (applyGo s'.insertions.reverse b
      (SgmlEvent.OpenStartTag name :: T)) rest2 = true
    rw [applyGo_gt _ b _ T hallb, balancedScan_open]
    rw [hstk] at hscan
    exact hscan

lemma inv_step_open_insert (len b : Nat) (name : Str) (T : List SgmlEvent)
    (s' : NetState) (hb : (b + 1) + T.length = len)
    (hinv : NetInv len (b + 1) T s') :
    NetInv len b (.OpenStartTag name :: T)
      ⟨s'.insertions ++ [(s'.nip, .EndTag name)], s'.stack, b, none⟩ := by
  obtain ⟨hEx, hnb, hnl, hneu, hpw, hpos, hscan⟩ := hinv
  refine ⟨rfl, le_rfl, by show b ≤ len; omega, by simp, ?_, ?_, ?_⟩
  · refine (List.pairwise_append).mpr ⟨hpw, by simp, ?_⟩
    intro a ha c hc
    simp only [List.mem_singleton] at hc
    subst hc
    show s'.nip < a.1
    exact (hpos a ha).1
  · intro p hp
    rcases List.mem_append.mp hp with h | h
    · have := hpos p h
      exact ⟨by show b < p.1; omega, this.2⟩
    · simp only [List.mem_singleton] at h
      subst h
      exact ⟨by show b < s'.nip; omega, by show s'.nip ≤ len; omega⟩
  · show balancedScan (applyGo
      (s'.insertions ++ [(s'.nip, SgmlEvent.EndTag name)]).reverse b
      (SgmlEvent.OpenStartTag name :: T)) s'.stack = true
    exact scan_after_insert s'.insertions T b s'.nip name s'.stack hnb (by omega)
      (fun p hp => (hpos p hp).1) hneu hscan

lemma netLoop_invariant (len : Nat) :
    ∀ (T : List SgmlEvent) (b : Nat) (T' : List SgmlEvent) (s : NetState),
    b + T.length = len →
    SgmlEvent.XmlCloseEmptyElement ∉ T →
    netLoop T b ⟨[], [], len, none⟩ = .ok (T', s) →
    T' = T ∧ NetInv len b T s := by
  intro T
  induction T with
  | nil =>
    intro b T' s hb _ h
    rw [netLoop_nil] at h
    simp only [Except.ok.injEq, Prod.mk.injEq] at h
    obtain ⟨h1, h2⟩ := h
    subst h1
    subst h2
    simp only [List.length_nil, Nat.add_zero] at hb
    subst hb
    exact ⟨rfl, rfl, le_rfl, le_rfl, by simp, List.Pairwise.nil, by simp, rfl⟩
  | cons e T ih =>
    intro b T' s hb hx h
    have hxe : e ≠ SgmlEvent.XmlCloseEmptyElement := fun he => hx (by simp [he])
    have hxT : SgmlEvent.XmlCloseEmptyElement ∉ T :=
      fun hm => hx (List.mem_cons_of_mem _ hm)
    have hb' : (b + 1) + T.length = len := by
      simp only [List.length_cons] at hb
      omega
    rw [netLoop_cons] at h
    rcases hrec : netLoop T (b + 1) ⟨[], [], len, none⟩ with err | ⟨rest', s'⟩
    · rw [hrec] at h
      exact absurd h (by simp)
    simp only [hrec] at h
    obtain ⟨hT', hinv⟩ := ih (b + 1) rest' s' hb' hxT hrec
    subst rest'
    obtain ⟨hEx, hnb, hnl, hneu, hpw, hpos, hscan⟩ := hinv
    have hinv' : NetInv len (b + 1) T s' := ⟨hEx, hnb, hnl, hneu, hpw, hpos, hscan⟩
    cases e with
    | OpenStartTag name =>
      by_cases hni : name.isEmpty = true
      · have hstep : netStep b (SgmlEvent.OpenStartTag name) s' =
            .error .EmptyTagNotSupported := by
          simp [netStep, hni]
        rw [hstep] at h
        exact absurd h (by simp)
      · cases hstk : s'.stack with
        | cons top rest2 =>
          by_cases htop : top = name
          · have hstep : netStep b (SgmlEvent.OpenStartTag name) s' =
                .ok (SgmlEvent.OpenStartTag name,
                  ⟨s'.insertions, rest2, b, none⟩) := by
              simp [netStep, hni, hEx, hstk, htop]
            simp only [hstep, Except.ok.injEq, Prod.mk.injEq] at h
            obtain ⟨h1, h2⟩ := h
            subst h1
            subst h2
            subst htop
            exact ⟨rfl, inv_step_open_pop len b top T s' rest2 hstk hinv'⟩
          · have hstep : netStep b (SgmlEvent.OpenStartTag name) s' =
                .ok (SgmlEvent.OpenStartTag name,
                  ⟨s'.insertions ++ [(s'.nip, SgmlEvent.EndTag name)],
                    top :: rest2, b, none⟩) := by
              simp [netStep, hni, hEx, hstk, htop]
            simp only [hstep, Except.ok.injEq, Prod.mk.injEq] at h
            obtain ⟨h1, h2⟩ := h
            subst h1
            subst h2
            have := inv_step_open_insert len b name T s' hb' hinv'
            rw [hstk] at this
            exact ⟨rfl, this⟩
        | nil =>
          have hstep : netStep b (SgmlEvent.OpenStartTag name) s' =
              .ok (SgmlEvent.OpenStartTag name,
                ⟨s'.insertions ++ [(s'.nip, SgmlEvent.EndTag name)],
                  [], b, none⟩) := by
            simp [netStep, hni, hEx, hstk]
          simp only [hstep, Except.ok.injEq, Prod.mk.injEq] at h
          obtain ⟨h1, h2⟩ := h
          subst h1
          subst h2
          have := inv_step_open_insert len b name T s' hb' hinv'
          rw [hstk] at this
          exact ⟨rfl, this⟩
    | EndTag name =>
      by_cases hni : name.isEmpty = true
      · have hstep : netStep b (SgmlEvent.EndTag name) s' =
            .error .EmptyTagNotSupported := by
          simp [netStep, hni]
        rw [hstep] at h
        exact absurd h (by simp)
      · have hstep : netStep b (SgmlEvent.EndTag name) s' =
            .ok (SgmlEvent.EndTag name,
              ⟨s'.insertions, name :: s'.stack, b, none⟩) := by
          simp [netStep, hni, hEx]
        simp only [hstep, Except.ok.injEq, Prod.mk.injEq] at h
        obtain ⟨h1, h2⟩ := h
        subst h1
        subst h2
        exact ⟨rfl, inv_step_end len b name T s' hinv'⟩
    | XmlCloseEmptyElement => exact absurd rfl hxe
    | Character text =>
      by_cases hcond : (s'.nip = b + 1 && is_blank text) = true
      · have hstep : netStep b (SgmlEvent.Character text) s' =
            .ok (SgmlEvent.Character text,
              ⟨s'.insertions, s'.stack, b, none⟩) := by
          simp only [netStep, hcond, if_pos]
          have hEx' := hEx
          cases s' with
          | mk a c d f =>
            simp only at hEx'
            subst hEx'
            rfl
        simp only [hstep, Except.ok.injEq, Prod.mk.injEq] at h
        obtain ⟨h1, h2⟩ := h
        subst h1
        subst h2
        exact ⟨rfl, inv_step_nip_reset len b (SgmlEvent.Character text) T s' rfl hinv'⟩
      · have hstep : netStep b (SgmlEvent.Character text) s' =
            .ok (SgmlEvent.Character text, s') := by
          simp [netStep, hcond]
        simp only [hstep, Except.ok.injEq, Prod.mk.injEq] at h
        obtain ⟨h1, h2⟩ := h
        subst h1
        subst h2
        exact ⟨rfl, inv_step_unchanged len b (SgmlEvent.Character text) T s' rfl hinv'⟩
    | MarkupDeclaration kw body =>
      have hstep : netStep b (SgmlEvent.MarkupDeclaration kw body) s' =
          .ok (SgmlEvent.MarkupDeclaration kw body, s') := rfl
      simp only [hstep, Except.ok.injEq, Prod.mk.injEq] at h
      obtain ⟨h1, h2⟩ := h
      subst h1
      subst h2
      exact ⟨rfl, inv_step_unchanged len b _ T s' rfl hinv'⟩
    | ProcessingInstruction txt =>
      have hstep : netStep b (SgmlEvent.ProcessingInstruction txt) s' =
          .ok (SgmlEvent.ProcessingInstruction txt, s') := rfl
      simp only [hstep, Except.ok.injEq, Prod.mk.injEq] at h
      obtain ⟨h1, h2⟩ := h
      subst h1
      subst h2
      exact ⟨rfl, inv_step_unchanged len b _ T s' rfl hinv'⟩
    | MarkedSection kw body =>
      have hstep : netStep b (SgmlEvent.MarkedSection kw body) s' =
          .ok (SgmlEvent.MarkedSection kw body, s') := rfl
      simp only [hstep, Except.ok.injEq, Prod.mk.injEq] at h
      obtain ⟨h1, h2⟩ := h
      subst h1
      subst h2
      exact ⟨rfl, inv_step_unchanged len b _ T s' rfl hinv'⟩
    | Attribute nm v =>
      have hstep : netStep b (SgmlEvent.Attribute nm v) s' =
          .ok (SgmlEvent.Attribute nm v, s') := rfl
      simp only [hstep, Except.ok.injEq, Prod.mk.injEq] at h
      obtain ⟨h1, h2⟩ := h
      subst h1
      subst h2
      exact ⟨rfl, inv_step_unchanged len b _ T s' rfl hinv'⟩
    | CloseStartTag =>
      have hstep : netStep b SgmlEvent.CloseStartTag s' =
          .ok (SgmlEvent.CloseStartTag, s') := rfl
      simp only [hstep, Except.ok.injEq, Prod.mk.injEq] at h
      obtain ⟨h1, h2⟩ := h
      subst h1
      subst h2
      exact ⟨rfl, inv_step_unchanged len b _ T s' rfl hinv'⟩

/-- **C1** (amended). For fragments containing no `XmlCloseEmptyElement`
event, whenever `normalize_end_tags` succeeds the returned fragment is
balanced: scanning it while pushing each `OpenStartTag` name and popping on
each matching `EndTag` never meets a mismatched end tag and ends with an
empty stack.  (With `XmlCloseEmptyElement` events the property can fail, see
the counterexample `normalize_end_tags_unbalanced_output`.) -/
theorem normalize_end_tags_balanced (events out : List SgmlEvent)
    (hx : SgmlEvent.XmlCloseEmptyElement ∉ events)
    (h : normalize_end_tags events = .ok out) :
    balancedScan out [] = true := by
  have h' : (match netLoop events 0 ⟨[], [], events.length, none⟩ with
    | .error err => .error err
    | .ok (events', s) =>
      match s.stack with
      | name :: _ => Except.error (NormalizationError.UnpairedEndTag name)
      | [] => .ok (Transform_apply s.insertions events')) = Except.ok out := h
  rcases hloop : netLoop events 0 ⟨[], [], events.length, none⟩ with err | ⟨T', s⟩
  · rw [hloop] at h'
    exact absurd h' (by simp)
  simp only [hloop] at h'
  obtain ⟨hT', hinv⟩ := netLoop_invariant events.length events 0 T' s (by simp) hx hloop
  subst T'
  obtain ⟨hEx, hnb, hnl, hneu, hpw, hpos, hscan⟩ := hinv
  rcases hstk : s.stack with _ | ⟨nm, rest⟩
  · simp only [hstk] at h'
    simp only [Except.ok.injEq] at h'
    subst h'
    have happly : Transform_apply s.insertions events =
        applyGo s.insertions.reverse 0 events := by
      rw [Transform_apply]
      by_cases hi : s.insertions.isEmpty
      · rw [if_pos hi]
        have hins : s.insertions = [] := by simpa using hi
        rw [hins]
        exact (applyGo_nil_ins 0 events).symm
      · rw [if_neg hi, sortByKey_reverse s.insertions hpw]
    rw [happly]
    rw [hstk] at hscan
    exact hscan
  · rw [hstk] at h'
    exact absurd h' (by simp)

/-- Witness for the amended C1: a fragment with an implied `</foo>`; the
transform inserts it and the result is balanced. -/
theorem normalize_end_tags_balanced_witness :
    SgmlEvent.XmlCloseEmptyElement ∉
      ([.OpenStartTag "root".data, .OpenStartTag "foo".data,
        .Character "hello".data, .EndTag "root".data] : List SgmlEvent) ∧
    normalize_end_tags [.OpenStartTag "root".data, .OpenStartTag "foo".data,
        .Character "hello".data, .EndTag "root".data] =
      .ok [.OpenStartTag "root".data, .OpenStartTag "foo".data,
        .Character "hello".data, .EndTag "foo".data, .EndTag "root".data] ∧
    balancedScan [.OpenStartTag "root".data, .OpenStartTag "foo".data,
        .Character "hello".data, .EndTag "foo".data, .EndTag "root".data] [] =
      true :=
  ⟨by decide, rfl,
   normalize_end_tags_balanced
     [.OpenStartTag "root".data, .OpenStartTag "foo".data,
       .Character "hello".data, .EndTag "root".data]
     [.OpenStartTag "root".data, .OpenStartTag "foo".data,
       .Character "hello".data, .EndTag "foo".data, .EndTag "root".data]
     (by decide) rfl⟩

end Sgmlish
